import Mathlib

/-!
# Reconciliation core of tennis-bracket-scripts

A shallow embedding of `src/helpers.go` (`toSlotSlice`, `getSlotKey`, `getUpdates`) together
with the record shape of `src/pocketbase.go` (`SlotRecord`), followed by theorems about them.

Conventions of the embedding:

* Go `int` is `Int`; no arithmetic is performed on these values, they are only copied,
  compared and printed.
* Go `string` is `String`. All strings built by `getSlotKey` are ASCII, so the byte-wise order
  used by `sort.Strings` coincides with the code-point order on `List Char`.
* A Go `map[string]Slot` is a function `String → Option Slot`; `m[k] = v` is `mapInsert`.
* A run-time panic is `none` in `Option`.
* `log.Println` diagnostics have no effect on the returned values and are omitted.
-/

namespace TennisBracket

/-! ## Data model -/

/-- One set score, as used by `helpers.go` (`Set{ID, DrawSlotID, Number, Games, Tiebreak}`). -/
structure Set where
  ID : String
  DrawSlotID : String
  Number : Int
  Games : Int
  Tiebreak : Int
deriving DecidableEq, Repr

/-- A bracket position, as used by `helpers.go`
(`Slot{ID, DrawID, Round, Position, Name, Seed, Sets}`). -/
structure Slot where
  ID : String
  DrawID : String
  Round : Int
  Position : Int
  Name : String
  Seed : String
  Sets : List Set
deriving DecidableEq, Repr

abbrev SetSlice := List Set
abbrev SlotSlice := List Slot

/-- Modelled from the spec: the `add` method of `SetSlice`, whose declaration is not part of
the sources; every use in `helpers.go` is an append of one element to a sequence. -/
def SetSlice.add (l : SetSlice) (s : Set) : SetSlice := l ++ [s]

/-- Modelled from the spec: the `add` method of `SlotSlice`, whose declaration is not part of
the sources; every use in `helpers.go` is an append of one element to a sequence. -/
def SlotSlice.add (l : SlotSlice) (s : Slot) : SlotSlice := l ++ [s]

/-- The persisted record of `pocketbase.go`; a `*int` is an `Option Int`. -/
structure SlotRecord where
  ID : String
  DrawID : String
  Round : Int
  Position : Int
  Name : String
  Seed : String
  Set1ID : String
  Set1Games : Option Int
  Set1Tiebreak : Option Int
  Set2ID : String
  Set2Games : Option Int
  Set2Tiebreak : Option Int
  Set3ID : String
  Set3Games : Option Int
  Set3Tiebreak : Option Int
  Set4ID : String
  Set4Games : Option Int
  Set4Tiebreak : Option Int
  Set5ID : String
  Set5Games : Option Int
  Set5Tiebreak : Option Int
deriving DecidableEq, Repr

/-! ## Record Normalizer (`toSlotSlice`) -/

/-- The field `Set<i>ID` looked up by name; `none` when there is no such field. -/
def SlotRecord.idField (r : SlotRecord) : Nat → Option String
  | 1 => some r.Set1ID
  | 2 => some r.Set2ID
  | 3 => some r.Set3ID
  | 4 => some r.Set4ID
  | 5 => some r.Set5ID
  | _ => none

/-- The field `Set<i>Games` looked up by name; `none` when there is no such field. -/
def SlotRecord.gamesField (r : SlotRecord) : Nat → Option (Option Int)
  | 1 => some r.Set1Games
  | 2 => some r.Set2Games
  | 3 => some r.Set3Games
  | 4 => some r.Set4Games
  | 5 => some r.Set5Games
  | _ => none

/-- The field `Set<i>Tiebreak` looked up by name; `none` when there is no such field. -/
def SlotRecord.tiebreakField (r : SlotRecord) : Nat → Option (Option Int)
  | 1 => some r.Set1Tiebreak
  | 2 => some r.Set2Tiebreak
  | 3 => some r.Set3Tiebreak
  | 4 => some r.Set4Tiebreak
  | 5 => some r.Set5Tiebreak
  | _ => none

/-- The inner loop of `toSlotSlice` over the remaining indices. The loop stops (`break`) at
the first index whose Games pointer is nil; dereferencing a nil Tiebreak pointer panics. -/
def scanSets (record : SlotRecord) : List Nat → SetSlice → Option SetSlice
  | [], sets => some sets
  | i :: rest, sets =>
    match record.gamesField i with
    | some (some games) =>
      match record.tiebreakField i with
      | some (some tiebreak) =>
        scanSets record rest
          (sets.add
            { ID := (record.idField i).getD "<invalid Value>"
              DrawSlotID := record.ID
              Number := i
              Games := games
              Tiebreak := tiebreak })
      | _ => none
    | _ => some sets

/-- The body of the outer loop of `toSlotSlice` for one record. -/
def toSlot (record : SlotRecord) : Option Slot :=
  match scanSets record [1, 2, 3, 4, 5] [] with
  | none => none
  | some sets =>
    some
      { ID := record.ID
        DrawID := record.DrawID
        Round := record.Round
        Position := record.Position
        Name := record.Name
        Seed := record.Seed
        Sets := sets }

/-- The outer loop of `toSlotSlice`, with the result accumulated so far. -/
def toSlotSliceLoop : List SlotRecord → SlotSlice → Option SlotSlice
  | [], result => some result
  | record :: rest, result =>
    match toSlot record with
    | none => none
    | some slot => toSlotSliceLoop rest (result.add slot)

/-- `toSlotSlice` of `helpers.go`; `none` is a panic. -/
def toSlotSlice (sr : List SlotRecord) : Option SlotSlice :=
  toSlotSliceLoop sr []

/-! ## Key Generator (`getSlotKey`) -/

/-- The digit loop of Go's integer formatting: the decimal digits of `u`, most significant
first, prepended to `buf`. The first argument bounds the number of iterations. -/
def fmtDigitsAux : Nat → Nat → List Char → List Char
  | 0, _, buf => buf
  | fuel + 1, u, buf =>
    if u < 10 then Nat.digitChar u :: buf
    else fmtDigitsAux fuel (u / 10) (Nat.digitChar (u % 10) :: buf)

/-- The decimal digits of `u`; `u + 1` iterations always suffice (`fmtDigits_of_ge`). -/
def fmtDigits (u : Nat) : List Char := fmtDigitsAux (u + 1) u []

/-- Go's `%0<wid>d` (and `%d` for `wid = 0`): the digits of the absolute value, padded on the
left with zeros up to the width, the sign taking one place of the width. -/
def fmtInteger (v : Int) (wid : Nat) : List Char :=
  let negative := decide (v < 0)
  let prec := if negative then wid - 1 else wid
  let ds := fmtDigits v.natAbs
  let padded := List.replicate (prec - ds.length) '0' ++ ds
  if negative then '-' :: padded else padded

/-- `getSlotKey` of `helpers.go`: `Sprintf("%d.%s", Round, Sprintf("%03d", Position))`. -/
def getSlotKey (s : Slot) : String :=
  String.mk (fmtInteger s.Round 0 ++ '.' :: fmtInteger s.Position 3)

/-! ## Reconciler (`getUpdates`) -/

/-- Go's `<` on strings, for the ASCII strings that occur as keys. -/
def stringLess (a b : String) : Bool := decide (a.toList < b.toList)

/-- Insertion of one string into a sorted list. -/
def insertString (k : String) : List String → List String
  | [] => [k]
  | x :: xs => if stringLess x k then x :: insertString k xs else k :: x :: xs

/-- `sort.Strings`: the argument in ascending order. -/
def sortStrings : List String → List String
  | [] => []
  | k :: ks => insertString k (sortStrings ks)

abbrev SlotMap := String → Option Slot

/-- The assignment `m[key] = slot`. -/
def mapInsert (m : SlotMap) (key : String) (slot : Slot) : SlotMap :=
  fun k => if k = key then some slot else m k

/-- The map built by `for _, slot := range l { m[getSlotKey(slot)] = slot }`. -/
def slotMap (l : SlotSlice) : SlotMap :=
  l.foldl (fun m slot => mapInsert m (getSlotKey slot) slot) (fun _ => none)

/-- The key set `allKeys` after `for _, slot := range l { allKeys[getSlotKey(slot)] = true }`,
as a duplicate-free list. -/
def addKeys (l : SlotSlice) (allKeys : List String) : List String :=
  l.foldl (fun ks slot => if getSlotKey slot ∈ ks then ks else ks ++ [getSlotKey slot]) allKeys

/-- The zero value of `Slot`, returned by a map lookup of an absent key. -/
def Slot.zero : Slot := ⟨"", "", 0, 0, "", "", []⟩

/-- The four sequences returned by `getUpdates`. -/
structure Updates where
  newSlots : SlotSlice
  updatedSlots : SlotSlice
  newSets : SetSlice
  updatedSets : SetSlice
deriving DecidableEq, Repr

/-- The body of the loop over the scraped sets of a slot present in both collections, at
index `j`. -/
def setStep (currentSlot : Slot) (acc : Updates) (j : Nat) (scrapedSet : Set) : Updates :=
  match currentSlot.Sets[j]? with
  | some currentSet =>
    if currentSet.Number ≠ scrapedSet.Number then acc
    else if currentSet.Games ≠ scrapedSet.Games ∨ currentSet.Tiebreak ≠ scrapedSet.Tiebreak then
      { acc with
        updatedSets := acc.updatedSets.add
          { ID := currentSet.ID
            DrawSlotID := currentSlot.ID
            Number := scrapedSet.Number
            Games := scrapedSet.Games
            Tiebreak := scrapedSet.Tiebreak } }
    else acc
  | none =>
    { acc with
      newSets := acc.newSets.add
        { ID := ""
          DrawSlotID := currentSlot.ID
          Number := scrapedSet.Number
          Games := scrapedSet.Games
          Tiebreak := scrapedSet.Tiebreak } }

/-- The loop `for j, scrapedSet := range scrapedSlot.Sets`, started at index `j`. -/
def setLoop (currentSlot : Slot) : List Set → Nat → Updates → Updates
  | [], _, acc => acc
  | scrapedSet :: rest, j, acc => setLoop currentSlot rest (j + 1) (setStep currentSlot acc j scrapedSet)

/-- The loop over the sets of a slot that is new. -/
def newSlotSets (scrapedSlot : Slot) (acc : SetSlice) : SetSlice :=
  scrapedSlot.Sets.foldl
    (fun newSets set =>
      newSets.add
        { ID := ""
          DrawSlotID := scrapedSlot.ID
          Number := set.Number
          Games := set.Games
          Tiebreak := set.Tiebreak })
    acc

/-- The body of the main loop of `getUpdates` for one key. -/
def processKey (scrapedMap currentMap : SlotMap) (seeds : String → Option String)
    (acc : Updates) (key : String) : Updates :=
  let scrapedSlot := (scrapedMap key).getD Slot.zero
  match currentMap key with
  | none =>
    { acc with
      newSlots := acc.newSlots.add scrapedSlot
      newSets := newSlotSets scrapedSlot acc.newSets }
  | some currentSlot =>
    if (scrapedMap key).isNone then acc
    else
      let acc := setLoop currentSlot scrapedSlot.Sets 0 acc
      let newName := scrapedSlot.Name
      let newSeed := (seeds newName).getD ""
      if newName = "" then acc
      else if newName = currentSlot.Name ∧ newSeed = currentSlot.Seed then acc
      else
        { acc with
          updatedSlots := acc.updatedSlots.add
            { ID := currentSlot.ID
              DrawID := currentSlot.DrawID
              Round := currentSlot.Round
              Position := currentSlot.Position
              Name := newName
              Seed := newSeed
              Sets := scrapedSlot.Sets } }

/-- The sorted list `keys` of `getUpdates`. -/
def sortedKeys (scraped current : SlotSlice) : List String :=
  sortStrings (addKeys current (addKeys scraped []))

/-- `getUpdates` of `helpers.go`. The seed lookup `seeds[name]` of an absent name is `""`. -/
def getUpdates (scraped current : SlotSlice) (seeds : String → Option String) : Updates :=
  (sortedKeys scraped current).foldl (processKey (slotMap scraped) (slotMap current) seeds)
    ⟨[], [], [], []⟩

/-! ## Per-slot record lists, stated by index -/

/-- The updated-Set records for a slot present in both collections, by index: for each
`i < min m n` with equal Numbers and different Games or Tiebreak, the record carrying the
current set's ID, the owner, and the scraped set's Number, Games and Tiebreak. -/
def pairedSetUpdates (ss cs : List Set) (owner : String) : SetSlice :=
  (List.range (min ss.length cs.length)).filterMap fun i =>
    match ss[i]?, cs[i]? with
    | some a, some b =>
      if a.Number = b.Number ∧ (a.Games ≠ b.Games ∨ a.Tiebreak ≠ b.Tiebreak) then
        some ⟨b.ID, owner, a.Number, a.Games, a.Tiebreak⟩
      else none
    | _, _ => none

/-- The new-Set records for a slot present in both collections, by index: for each `i` with
`n ≤ i < m`, the record without ID carrying the owner and the scraped set's Number, Games and
Tiebreak. -/
def extraNewSets (ss cs : List Set) (owner : String) : SetSlice :=
  ((List.range ss.length).filter fun i => cs.length ≤ i).filterMap fun i =>
    ss[i]?.map fun a => ⟨"", owner, a.Number, a.Games, a.Tiebreak⟩

/-- The new-Set records of a slot that is new: one per scraped set, owned by the scraped
slot's (empty) ID. -/
def freshSlotSets (s : Slot) : SetSlice :=
  s.Sets.map fun a => ⟨"", s.ID, a.Number, a.Games, a.Tiebreak⟩

/-- The updated-Slot records for a slot present in both collections: none when the scraped
name is empty or name and resolved seed are those stored, else one. -/
def slotUpdate (seeds : String → Option String) (s c : Slot) : SlotSlice :=
  if s.Name = "" then []
  else if s.Name = c.Name ∧ (seeds s.Name).getD "" = c.Seed then []
  else [⟨c.ID, c.DrawID, c.Round, c.Position, s.Name, (seeds s.Name).getD "", s.Sets⟩]

/-- What the main loop appends for one key, given the two lookups. -/
def keyUpdates (seeds : String → Option String) : Option Slot → Option Slot → Updates
  | s?, none => ⟨[s?.getD Slot.zero], [], freshSlotSets (s?.getD Slot.zero), []⟩
  | none, some _ => ⟨[], [], [], []⟩
  | some s, some c =>
    ⟨[], slotUpdate seeds s c, extraNewSets s.Sets c.Sets c.ID,
      pairedSetUpdates s.Sets c.Sets c.ID⟩

/-- Componentwise concatenation. -/
def Updates.append (a b : Updates) : Updates :=
  ⟨a.newSlots ++ b.newSlots, a.updatedSlots ++ b.updatedSlots, a.newSets ++ b.newSets,
    a.updatedSets ++ b.updatedSets⟩

/-! ## The normal form of a record, read from its fields -/

/-- The five set-score triples (storage ID, Games, Tiebreak) of a persisted record, for the
indices 1 to 5 in this order, read directly from the fields of `SlotRecord`. -/
def SlotRecord.setScores (r : SlotRecord) : List (String × Option Int × Option Int) :=
  [(r.Set1ID, r.Set1Games, r.Set1Tiebreak),
   (r.Set2ID, r.Set2Games, r.Set2Tiebreak),
   (r.Set3ID, r.Set3Games, r.Set3Tiebreak),
   (r.Set4ID, r.Set4Games, r.Set4Tiebreak),
   (r.Set5ID, r.Set5Games, r.Set5Tiebreak)]

/-- The canonical Slot `s` is the normal form of the record `r`: the scalar fields are copied,
and for the largest `k ≤ 5` such that the Games values at indices `1..k` are all present (so
the Games value at `k + 1` is absent when `k < 5`) the Sets are exactly `k` sets, the one at
position `i` (counted from 0) having the storage ID, Games and Tiebreak of the triple at index
`i + 1`, Number `i + 1` and the record's ID as owner. -/
def SlotRecord.NormalizesTo (r : SlotRecord) (s : Slot) : Prop :=
  s.ID = r.ID ∧ s.DrawID = r.DrawID ∧ s.Round = r.Round ∧ s.Position = r.Position ∧
    s.Name = r.Name ∧ s.Seed = r.Seed ∧
    ∃ k, k ≤ 5 ∧ s.Sets.length = k ∧
      (∀ i, i < k → ∃ id g t, r.setScores[i]? = some (id, some g, some t) ∧
        s.Sets[i]? = some ⟨id, r.ID, ((i + 1 : Nat) : Int), g, t⟩) ∧
      (k < 5 → ∃ id t, r.setScores[k]? = some (id, none, t)) ∧
      s.Sets.map (fun x => x.Number) = (List.range' 1 k).map (fun (i : Nat) => (i : Int))

/-! ## The record as the code reads it

`toSlotSlice` reads the set fields by constructed name. The next definitions name what the
code obtains for an index; `fieldsAt` relates them to the fields. -/

/-- The Games value the code obtains for index `i`: absent when the pointer is nil. -/
def SlotRecord.games (r : SlotRecord) (i : Nat) : Option Int := (r.gamesField i).join

/-- The Tiebreak value the code obtains for index `i`: absent when the pointer is nil. -/
def SlotRecord.tiebreak (r : SlotRecord) (i : Nat) : Option Int := (r.tiebreakField i).join

/-- The set the code appends for index `i` when Games and Tiebreak are present. -/
def SlotRecord.setAt (r : SlotRecord) (i : Nat) : Set :=
  ⟨(r.idField i).getD "<invalid Value>", r.ID, i, (r.games i).getD 0, (r.tiebreak i).getD 0⟩

/-! ## Reading a formatted integer back -/

/-- The number denoted by a string of decimal digits. -/
def digitsValue (l : List Char) : Nat :=
  l.foldl (fun acc c => 10 * acc + (c.toNat - 48)) 0

/-- The integer denoted by an optional minus sign followed by decimal digits. -/
def parseInteger : List Char → Int
  | '-' :: rest => -(digitsValue rest : Int)
  | l => (digitsValue l : Int)

/-! ## The store after a reconciliation

The persistence collaborator is outside the core. Its effect on the stored collection is
modelled from the specification's description of the four output sequences. -/

/-- Modelled from the spec: the store is not part of the sources. A new Slot is inserted
under the storage ID `id`, with its new Sets (one per scraped set) attached and owned by it;
`setID` is the storage ID the store gives a new Set record. -/
def persistNewSlot (setID : Set → String) (id : String) (s : Slot) : Slot :=
  { s with
    ID := id
    Sets := (freshSlotSets s).map fun x => { x with ID := setID x, DrawSlotID := id } }

/-- Modelled from the spec: the new Slots are inserted one after the other, the `i`-th under
the fresh storage ID `fresh i`. -/
def insertNewSlots (fresh : Nat → String) (setID : Set → String) : Nat → SlotSlice → SlotSlice
  | _, [] => []
  | i, s :: rest => persistNewSlot setID (fresh i) s :: insertNewSlots fresh setID (i + 1) rest

/-- Modelled from the spec: an updated Set replaces Games and Tiebreak of the stored set with
the same storage ID. -/
def applySetUpdates (updatedSets : SetSlice) (x : Set) : Set :=
  match updatedSets.find? (fun y => y.ID = x.ID) with
  | some y => { x with Games := y.Games, Tiebreak := y.Tiebreak }
  | none => x

/-- Modelled from the spec: a stored Slot after the outputs are applied. Updated Sets replace
the scores of its sets, the new Sets owned by its storage ID are appended, and an updated Slot
with its storage ID replaces Name and Seed. -/
def applyToSlot (setID : Set → String) (u : Updates) (c : Slot) : Slot :=
  let sets :=
    c.Sets.map (applySetUpdates u.updatedSets) ++
      (u.newSets.filter fun y => y.DrawSlotID = c.ID).map fun y => { y with ID := setID y }
  match u.updatedSlots.find? (fun y => y.ID = c.ID) with
  | some y => { c with Name := y.Name, Seed := y.Seed, Sets := sets }
  | none => { c with Sets := sets }

/-- Modelled from the spec: `current` after the four outputs of a reconciliation are applied
(new Slots inserted, new Sets appended to their owner, updated Sets and updated Slots written
by storage ID). -/
def applyUpdates (fresh : Nat → String) (setID : Set → String) (current : SlotSlice)
    (u : Updates) : SlotSlice :=
  current.map (applyToSlot setID u) ++ insertNewSlots fresh setID 0 u.newSlots

/-! ## Lemmas: sorting -/

theorem stringLess_iff (a b : String) : stringLess a b = true ↔ a < b := by
  simp [stringLess]

theorem insertString_eq (k : String) (l : List String) :
    insertString k l = List.orderedInsert (· ≤ ·) k l := by
  induction l with
  | nil => rfl
  | cons x xs ih =>
    by_cases h : x < k
    · have h2 : ¬ k ≤ x := not_le.mpr h
      simp [insertString, List.orderedInsert, (stringLess_iff x k).mpr h, h2, ih]
    · have h2 : k ≤ x := not_lt.mp h
      have h3 : stringLess x k = false := by
        rw [← Bool.not_eq_true, stringLess_iff]; exact h
      simp [insertString, List.orderedInsert, h3, h2]

theorem sortStrings_eq (l : List String) : sortStrings l = List.insertionSort (· ≤ ·) l := by
  induction l with
  | nil => rfl
  | cons x xs ih => simp [sortStrings, List.insertionSort, ih, insertString_eq]

theorem sortStrings_perm (l : List String) : (sortStrings l).Perm l := by
  rw [sortStrings_eq]; exact List.perm_insertionSort _ l

theorem sortStrings_sorted (l : List String) : (sortStrings l).Sorted (· ≤ ·) := by
  rw [sortStrings_eq]; exact List.sorted_insertionSort _ l

theorem sortStrings_sorted_lt (l : List String) (h : l.Nodup) :
    (sortStrings l).Sorted (· < ·) :=
  (sortStrings_sorted l).lt_of_le ((sortStrings_perm l).nodup_iff.mpr h)

/-! ## Lemmas: the key set and the maps -/

theorem addKeys_append (l : SlotSlice) (s : Slot) (ks : List String) :
    addKeys (l ++ [s]) ks =
      if getSlotKey s ∈ addKeys l ks then addKeys l ks else addKeys l ks ++ [getSlotKey s] := by
  simp [addKeys, List.foldl_append]

theorem mem_addKeys (l : SlotSlice) (ks : List String) (k : String) :
    k ∈ addKeys l ks ↔ k ∈ ks ∨ k ∈ l.map getSlotKey := by
  induction l using List.reverseRecOn with
  | nil => simp [addKeys]
  | append_singleton l s ih =>
    rw [addKeys_append]
    by_cases h : getSlotKey s ∈ addKeys l ks
    · simp only [h, if_true, ih, List.map_append, List.mem_append, List.map_cons, List.map_nil,
        List.mem_singleton]
      constructor
      · rintro (h1 | h1)
        · exact Or.inl h1
        · exact Or.inr (Or.inl h1)
      · rintro (h1 | h1 | h1)
        · exact Or.inl h1
        · exact Or.inr h1
        · subst h1; exact ih.mp h
    · simp only [h, if_false, ih, List.map_append, List.mem_append, List.map_cons, List.map_nil,
        List.mem_singleton]
      tauto

theorem nodup_addKeys (l : SlotSlice) (ks : List String) (h : ks.Nodup) :
    (addKeys l ks).Nodup := by
  induction l using List.reverseRecOn with
  | nil => simpa [addKeys] using h
  | append_singleton l s ih =>
    rw [addKeys_append]
    by_cases h1 : getSlotKey s ∈ addKeys l ks
    · simpa [h1] using ih
    · simp only [h1, if_false]
      exact List.Nodup.append ih (List.nodup_singleton _) (by simpa using h1)

theorem slotMap_append (l : SlotSlice) (s : Slot) :
    slotMap (l ++ [s]) = mapInsert (slotMap l) (getSlotKey s) s := by
  simp [slotMap, List.foldl_append]

theorem slotMap_eq_none (l : SlotSlice) (k : String) :
    slotMap l k = none ↔ k ∉ l.map getSlotKey := by
  induction l using List.reverseRecOn with
  | nil => simp [slotMap]
  | append_singleton l s ih =>
    rw [slotMap_append]
    by_cases h : k = getSlotKey s
    · simp [mapInsert, h]
    · simp only [mapInsert, h, if_false, ih, List.map_append, List.mem_append, List.map_cons,
        List.map_nil, List.mem_singleton, or_false]

theorem slotMap_some (l : SlotSlice) (k : String) (s : Slot) (h : slotMap l k = some s) :
    s ∈ l ∧ getSlotKey s = k := by
  induction l using List.reverseRecOn with
  | nil => simp [slotMap] at h
  | append_singleton l t ih =>
    rw [slotMap_append] at h
    by_cases hk : k = getSlotKey t
    · simp only [mapInsert, hk, if_true, Option.some.injEq] at h
      subst h; exact ⟨by simp, hk.symm⟩
    · simp only [mapInsert, hk, if_false] at h
      exact ⟨List.mem_append_left _ (ih h).1, (ih h).2⟩

theorem slotMap_of_nodup (l : SlotSlice) (h : (l.map getSlotKey).Nodup) (s : Slot)
    (hs : s ∈ l) : slotMap l (getSlotKey s) = some s := by
  induction l using List.reverseRecOn with
  | nil => simp at hs
  | append_singleton l t ih =>
    rw [slotMap_append]
    rw [List.map_append, List.nodup_append] at h
    obtain ⟨h1, -, h3⟩ := h
    rcases List.mem_append.mp hs with hs1 | hs1
    · have hne : getSlotKey s ≠ getSlotKey t := by
        intro he
        exact h3 (List.mem_map_of_mem _ hs1) (by simp [he])
      simp only [mapInsert, hne, if_false]
      exact ih h1 hs1
    · simp only [List.mem_singleton] at hs1
      subst hs1
      simp [mapInsert]

theorem slotMap_isSome (l : SlotSlice) (k : String) :
    (slotMap l k).isSome ↔ k ∈ l.map getSlotKey := by
  rw [← not_iff_not, ← slotMap_eq_none]
  cases slotMap l k <;> simp

/-- The key list of `getUpdates` is strictly ascending and consists of the keys of both
collections. -/
theorem sortedKeys_sorted (scraped current : SlotSlice) :
    (sortedKeys scraped current).Sorted (· < ·) :=
  sortStrings_sorted_lt _ (nodup_addKeys _ _ (nodup_addKeys _ _ List.nodup_nil))

theorem sortedKeys_nodup (scraped current : SlotSlice) :
    (sortedKeys scraped current).Nodup :=
  (sortStrings_perm _).nodup_iff.mpr (nodup_addKeys _ _ (nodup_addKeys _ _ List.nodup_nil))

theorem mem_sortedKeys (scraped current : SlotSlice) (k : String) :
    k ∈ sortedKeys scraped current ↔
      k ∈ scraped.map getSlotKey ∨ k ∈ current.map getSlotKey := by
  unfold sortedKeys
  rw [(sortStrings_perm _).mem_iff, mem_addKeys, mem_addKeys]
  simp

/-! ## Lemmas: the loops of `getUpdates` -/

theorem setLoop_append (c : Slot) (l : List Set) (a : Set) (j : Nat) (acc : Updates) :
    setLoop c (l ++ [a]) j acc = setStep c (setLoop c l j acc) (j + l.length) a := by
  induction l generalizing j acc with
  | nil => simp [setLoop]
  | cons x xs ih =>
    show setLoop c (xs ++ [a]) (j + 1) (setStep c acc j x) =
      setStep c (setLoop c xs (j + 1) (setStep c acc j x)) (j + (xs.length + 1)) a
    rw [ih]
    have : j + 1 + xs.length = j + (xs.length + 1) := by omega
    rw [this]

theorem pairedSetUpdates_append (l : List Set) (a : Set) (cs : List Set) (owner : String) :
    pairedSetUpdates (l ++ [a]) cs owner =
      pairedSetUpdates l cs owner ++
        (match cs[l.length]? with
          | some b =>
            if a.Number = b.Number ∧ (a.Games ≠ b.Games ∨ a.Tiebreak ≠ b.Tiebreak) then
              [⟨b.ID, owner, a.Number, a.Games, a.Tiebreak⟩]
            else []
          | none => []) := by
  unfold pairedSetUpdates
  by_cases h : l.length < cs.length
  · have h1 : min (l ++ [a]).length cs.length = l.length + 1 := by simp; omega
    have h2 : min l.length cs.length = l.length := by omega
    rw [h1, h2, List.range_succ, List.filterMap_append]
    congr 1
    · apply List.filterMap_congr
      intro i hi
      rw [List.mem_range] at hi
      rw [List.getElem?_append_left hi]
    · obtain ⟨b, hb⟩ : ∃ b, cs[l.length]? = some b := ⟨cs[l.length], by simp [h]⟩
      simp only [List.filterMap_cons, List.filterMap_nil, hb]
      have ha : (l ++ [a])[l.length]? = some a := by simp
      rw [ha]
      by_cases hcond : a.Number = b.Number ∧ (a.Games ≠ b.Games ∨ a.Tiebreak ≠ b.Tiebreak)
      · simp [hcond]
      · simp [hcond]
  · have h1 : min (l ++ [a]).length cs.length = cs.length := by simp; omega
    have h2 : min l.length cs.length = cs.length := by omega
    have h3 : cs[l.length]? = none := by simp; omega
    rw [h1, h2, h3]
    simp only [List.append_nil]
    apply List.filterMap_congr
    intro i hi
    rw [List.mem_range] at hi
    rw [List.getElem?_append_left (by omega)]

theorem extraNewSets_append (l : List Set) (a : Set) (cs : List Set) (owner : String) :
    extraNewSets (l ++ [a]) cs owner =
      extraNewSets l cs owner ++
        (if cs.length ≤ l.length then [⟨"", owner, a.Number, a.Games, a.Tiebreak⟩] else []) := by
  unfold extraNewSets
  simp only [List.length_append, List.length_singleton, List.range_succ, List.filter_append,
    List.filterMap_append]
  congr 1
  · apply List.filterMap_congr
    intro i hi
    rw [List.mem_filter, List.mem_range] at hi
    rw [List.getElem?_append_left hi.1]
  · by_cases h : cs.length ≤ l.length
    · simp [h]
    · simp [h]

theorem setLoop_eq (c : Slot) (l : List Set) (acc : Updates) :
    setLoop c l 0 acc =
      ⟨acc.newSlots, acc.updatedSlots, acc.newSets ++ extraNewSets l c.Sets c.ID,
        acc.updatedSets ++ pairedSetUpdates l c.Sets c.ID⟩ := by
  induction l using List.reverseRecOn with
  | nil => simp [setLoop, extraNewSets, pairedSetUpdates]
  | append_singleton l a ih =>
    rw [setLoop_append, ih, pairedSetUpdates_append, extraNewSets_append]
    simp only [setStep, Nat.zero_add]
    cases hb : c.Sets[l.length]? with
    | none =>
      have hlen : c.Sets.length ≤ l.length := by
        simpa using hb
      simp [hlen, SetSlice.add]
    | some b =>
      have hlen : ¬ c.Sets.length ≤ l.length := by
        intro hle
        have : c.Sets[l.length]? = none := by simp; omega
        rw [this] at hb; cases hb
      by_cases hn : b.Number = a.Number
      · by_cases hg : b.Games ≠ a.Games ∨ b.Tiebreak ≠ a.Tiebreak
        · have hg2 : a.Games ≠ b.Games ∨ a.Tiebreak ≠ b.Tiebreak := by
            rcases hg with h | h
            · exact Or.inl (Ne.symm h)
            · exact Or.inr (Ne.symm h)
          simp [hlen, hn, hg, hg2, SetSlice.add]
        · have hg2 : ¬ (a.Games ≠ b.Games ∨ a.Tiebreak ≠ b.Tiebreak) := by
            intro h; apply hg
            rcases h with h | h
            · exact Or.inl (Ne.symm h)
            · exact Or.inr (Ne.symm h)
          simp [hlen, hn, hg, hg2]
      · have hn2 : ¬ a.Number = b.Number := fun h => hn h.symm
        simp [hlen, hn, hn2]

theorem newSlotSets_eq (s : Slot) (acc : SetSlice) :
    newSlotSets s acc = acc ++ freshSlotSets s := by
  unfold newSlotSets freshSlotSets
  simp only [SetSlice.add]
  generalize s.Sets = l
  induction l generalizing acc with
  | nil => simp
  | cons x xs ih => rw [List.foldl_cons, ih]; simp

theorem processKey_eq (sm cm : SlotMap) (seeds : String → Option String) (acc : Updates)
    (k : String) :
    processKey sm cm seeds acc k = acc.append (keyUpdates seeds (sm k) (cm k)) := by
  unfold processKey
  cases hc : cm k with
  | none =>
    simp [keyUpdates, Updates.append, newSlotSets_eq, SlotSlice.add]
  | some c =>
    cases hs : sm k with
    | none => simp [keyUpdates, Updates.append]
    | some s =>
      simp only [Option.isNone_some, Bool.false_eq_true, if_false, Option.getD_some,
        setLoop_eq, keyUpdates, Updates.append, slotUpdate]
      by_cases h1 : s.Name = ""
      · simp only [if_pos h1, List.append_nil]
      · by_cases h2 : s.Name = c.Name ∧ (seeds s.Name).getD "" = c.Seed
        · simp only [if_neg h1, if_pos h2, List.append_nil]
        · simp only [if_neg h1, if_neg h2, SlotSlice.add, List.append_nil]

theorem foldl_processKey (sm cm : SlotMap) (seeds : String → Option String)
    (keys : List String) (acc : Updates) :
    keys.foldl (processKey sm cm seeds) acc =
      ⟨acc.newSlots ++ keys.flatMap (fun k => (keyUpdates seeds (sm k) (cm k)).newSlots),
        acc.updatedSlots ++ keys.flatMap (fun k => (keyUpdates seeds (sm k) (cm k)).updatedSlots),
        acc.newSets ++ keys.flatMap (fun k => (keyUpdates seeds (sm k) (cm k)).newSets),
        acc.updatedSets ++ keys.flatMap (fun k => (keyUpdates seeds (sm k) (cm k)).updatedSets)⟩ := by
  induction keys generalizing acc with
  | nil => simp
  | cons k ks ih =>
    rw [List.foldl_cons, ih, processKey_eq]
    simp [Updates.append, List.flatMap_cons]

theorem getUpdates_eq (scraped current : SlotSlice) (seeds : String → Option String) :
    getUpdates scraped current seeds =
      ⟨(sortedKeys scraped current).flatMap
          (fun k => (keyUpdates seeds (slotMap scraped k) (slotMap current k)).newSlots),
        (sortedKeys scraped current).flatMap
          (fun k => (keyUpdates seeds (slotMap scraped k) (slotMap current k)).updatedSlots),
        (sortedKeys scraped current).flatMap
          (fun k => (keyUpdates seeds (slotMap scraped k) (slotMap current k)).newSets),
        (sortedKeys scraped current).flatMap
          (fun k => (keyUpdates seeds (slotMap scraped k) (slotMap current k)).updatedSets)⟩ := by
  unfold getUpdates
  rw [foldl_processKey]
  simp

/-! ## Lemmas: contributions per key -/

theorem getSlotKey_congr (a b : Slot) (hr : a.Round = b.Round) (hp : a.Position = b.Position) :
    getSlotKey a = getSlotKey b := by
  simp [getSlotKey, hr, hp]

theorem slotUpdate_key (seeds : String → Option String) (s c u : Slot)
    (hu : u ∈ slotUpdate seeds s c) : getSlotKey u = getSlotKey c ∧ u.ID = c.ID := by
  unfold slotUpdate at hu
  split_ifs at hu
  · simp at hu
  · simp at hu
  · simp only [List.mem_singleton] at hu
    subst hu
    exact ⟨getSlotKey_congr _ _ rfl rfl, rfl⟩

theorem keyUpdates_updatedSlots_key (seeds : String → Option String) (scraped current : SlotSlice)
    (k : String) (u : Slot)
    (hu : u ∈ (keyUpdates seeds (slotMap scraped k) (slotMap current k)).updatedSlots) :
    getSlotKey u = k ∧ ∃ c ∈ current, getSlotKey c = k ∧ u.ID = c.ID := by
  cases hc : slotMap current k with
  | none => cases hs : slotMap scraped k <;> simp [hc, hs, keyUpdates] at hu
  | some c =>
    cases hs : slotMap scraped k with
    | none => simp [hc, hs, keyUpdates] at hu
    | some s =>
      simp only [hc, hs, keyUpdates] at hu
      have h1 := slotUpdate_key seeds s c u hu
      have h2 := slotMap_some current k c hc
      exact ⟨h1.1.trans h2.2, c, h2.1, h2.2, h1.2⟩

theorem filter_flatMap_of_not_mem (keys : List String) (f : String → SlotSlice)
    (hf : ∀ k u, u ∈ f k → getSlotKey u = k) (k : String) (hk : k ∉ keys) :
    (keys.flatMap f).filter (fun u => getSlotKey u = k) = [] := by
  rw [List.filter_eq_nil_iff]
  intro u hu
  rw [List.mem_flatMap] at hu
  obtain ⟨k', hk', hu'⟩ := hu
  have := hf k' u hu'
  simp only [decide_eq_true_eq]
  intro h
  rw [this] at h
  exact hk (h ▸ hk')

theorem filter_flatMap_of_mem (keys : List String) (f : String → SlotSlice)
    (hf : ∀ k u, u ∈ f k → getSlotKey u = k) (hnd : keys.Nodup) (k : String) (hk : k ∈ keys) :
    (keys.flatMap f).filter (fun u => getSlotKey u = k) = f k := by
  induction keys with
  | nil => simp at hk
  | cons x xs ih =>
    rw [List.nodup_cons] at hnd
    rw [List.flatMap_cons, List.filter_append]
    by_cases hx : x = k
    · subst hx
      rw [filter_flatMap_of_not_mem xs f hf x hnd.1, List.append_nil, List.filter_eq_self]
      intro u hu
      simp [hf x u hu]
    · have hk' : k ∈ xs := by
        rcases List.mem_cons.mp hk with h | h
        · exact absurd h.symm hx
        · exact h
      rw [ih hnd.2 hk']
      have : (f x).filter (fun u => getSlotKey u = k) = [] := by
        rw [List.filter_eq_nil_iff]
        intro u hu
        simp only [decide_eq_true_eq]
        rw [hf x u hu]; exact hx
      rw [this, List.nil_append]

theorem slotMap_eq_find (l : SlotSlice) (h : (l.map getSlotKey).Nodup) (k : String) :
    slotMap l k = l.find? (fun s => getSlotKey s = k) := by
  cases hf : l.find? (fun s => getSlotKey s = k) with
  | none =>
    rw [slotMap_eq_none]
    rw [List.find?_eq_none] at hf
    intro hk
    rw [List.mem_map] at hk
    obtain ⟨s, hs, hsk⟩ := hk
    exact hf s hs (by simpa using hsk)
  | some s =>
    have h1 := List.mem_of_find?_eq_some hf
    have h2 := List.find?_some hf
    simp only [decide_eq_true_eq] at h2
    rw [← h2]
    exact slotMap_of_nodup l h s h1

/-! ## Lemmas: only scraped keys contribute -/

theorem slotMap_append_list (l1 l2 : SlotSlice) (k : String) :
    slotMap (l1 ++ l2) k =
      match slotMap l2 k with
      | some s => some s
      | none => slotMap l1 k := by
  induction l2 using List.reverseRecOn with
  | nil => simp [slotMap]
  | append_singleton l t ih =>
    rw [← List.append_assoc, slotMap_append, slotMap_append]
    by_cases h : k = getSlotKey t
    · simp [mapInsert, h]
    · simp only [mapInsert, h, if_false, ih]

theorem slotMap_remove (l1 l2 : SlotSlice) (c : Slot) (k : String) (h : k ≠ getSlotKey c) :
    slotMap (l1 ++ c :: l2) k = slotMap (l1 ++ l2) k := by
  have h1 : slotMap (c :: l2) k = slotMap l2 k := by
    have := slotMap_append_list [c] l2 k
    rw [List.singleton_append] at this
    rw [this]
    cases slotMap l2 k with
    | some s => rfl
    | none => simp [slotMap, mapInsert, h]
  rw [slotMap_append_list, slotMap_append_list l1 l2, h1]

theorem flatMap_filter_of_nil {α β : Type} (f : α → List β) (p : α → Bool) (l : List α)
    (h : ∀ x ∈ l, p x = false → f x = []) : l.flatMap f = (l.filter p).flatMap f := by
  induction l with
  | nil => rfl
  | cons x xs ih =>
    have ih' := ih (fun y hy => h y (List.mem_cons_of_mem _ hy))
    cases hp : p x with
    | true => simp [List.filter_cons, hp, List.flatMap_cons, ih']
    | false => simp [List.filter_cons, hp, List.flatMap_cons, ih', h x (List.mem_cons_self _ _) hp]

theorem sortedKeys_filter_scraped (scraped current : SlotSlice) :
    (sortedKeys scraped current).filter (fun k => k ∈ scraped.map getSlotKey) =
      sortedKeys scraped [] := by
  apply List.eq_of_perm_of_sorted (r := (· < ·))
  · rw [List.perm_ext_iff_of_nodup ((sortedKeys_nodup _ _).filter _) (sortedKeys_nodup _ _)]
    intro k
    simp only [List.mem_filter, mem_sortedKeys, decide_eq_true_eq, List.map_nil,
      List.not_mem_nil, or_false]
    tauto
  · exact (sortedKeys_sorted _ _).sublist (List.filter_sublist _)
  · exact sortedKeys_sorted _ _

theorem keyUpdates_of_not_scraped (scraped current : SlotSlice) (seeds : String → Option String)
    (k : String) (hk : k ∈ sortedKeys scraped current) (hs : k ∉ scraped.map getSlotKey) :
    keyUpdates seeds (slotMap scraped k) (slotMap current k) = ⟨[], [], [], []⟩ := by
  have h1 : slotMap scraped k = none := (slotMap_eq_none _ _).mpr hs
  have h2 : k ∈ current.map getSlotKey := by
    rcases (mem_sortedKeys _ _ _).mp hk with h | h
    · exact absurd h hs
    · exact h
  obtain ⟨c, hc⟩ : ∃ c, slotMap current k = some c := by
    rw [← Option.isSome_iff_exists, slotMap_isSome]; exact h2
  rw [h1, hc]; rfl

/-- The main loop may be restricted to the keys of the scraped collection. -/
theorem getUpdates_eq_scraped (scraped current : SlotSlice) (seeds : String → Option String) :
    getUpdates scraped current seeds =
      ⟨(sortedKeys scraped []).flatMap
          (fun k => (keyUpdates seeds (slotMap scraped k) (slotMap current k)).newSlots),
        (sortedKeys scraped []).flatMap
          (fun k => (keyUpdates seeds (slotMap scraped k) (slotMap current k)).updatedSlots),
        (sortedKeys scraped []).flatMap
          (fun k => (keyUpdates seeds (slotMap scraped k) (slotMap current k)).newSets),
        (sortedKeys scraped []).flatMap
          (fun k => (keyUpdates seeds (slotMap scraped k) (slotMap current k)).updatedSets)⟩ := by
  rw [getUpdates_eq, ← sortedKeys_filter_scraped scraped current]
  congr 1
  all_goals
    apply flatMap_filter_of_nil
    intro k hk hp
    have hs : k ∉ scraped.map getSlotKey := by simpa using hp
    rw [keyUpdates_of_not_scraped scraped current seeds k hk hs]

theorem getUpdates_congr_current (scraped cur1 cur2 : SlotSlice)
    (seeds : String → Option String)
    (h : ∀ k ∈ scraped.map getSlotKey, slotMap cur1 k = slotMap cur2 k) :
    getUpdates scraped cur1 seeds = getUpdates scraped cur2 seeds := by
  rw [getUpdates_eq_scraped, getUpdates_eq_scraped]
  have hk : ∀ k ∈ sortedKeys scraped [], slotMap cur1 k = slotMap cur2 k := by
    intro k hk
    apply h
    simpa [mem_sortedKeys] using hk
  congr 1
  all_goals
    apply List.flatMap_congr
    intro k hk'
    rw [hk k hk']

theorem sortedKeys_perm_scraped (scraped : SlotSlice) (hs : (scraped.map getSlotKey).Nodup) :
    (sortedKeys scraped []).Perm (scraped.map getSlotKey) := by
  rw [List.perm_ext_iff_of_nodup (sortedKeys_nodup _ _) hs]
  intro k
  simp [mem_sortedKeys]

theorem flatMap_ite_eq_filter {α : Type} (p : α → Bool) (l : List α) :
    l.flatMap (fun x => if p x then [x] else []) = l.filter p := by
  induction l with
  | nil => rfl
  | cons x xs ih =>
    cases hp : p x <;> simp [List.flatMap_cons, List.filter_cons, hp, ih]

theorem map_key_flatMap_sublist (keys : List String) (g : String → SlotSlice)
    (hg : ∀ k ∈ keys, g k = [] ∨ ∃ u, g k = [u] ∧ getSlotKey u = k) :
    ((keys.flatMap g).map getSlotKey).Sublist keys := by
  induction keys with
  | nil => simp
  | cons x xs ih =>
    have ih' := ih (fun k hk => hg k (List.mem_cons_of_mem _ hk))
    rw [List.flatMap_cons, List.map_append]
    rcases hg x (List.mem_cons_self _ _) with h | ⟨u, h, hu⟩
    · rw [h]; exact List.Sublist.cons _ ih'
    · rw [h]; simp only [List.map_cons, List.map_nil, List.singleton_append, hu]
      exact List.Sublist.cons₂ _ ih'

/-! ## Lemmas: the normalizer -/

theorem scanSets_range (r : SlotRecord)
    (h : ∀ i, (r.games i).isSome → (r.tiebreak i).isSome) (n j : Nat) (acc : SetSlice) :
    ∃ k, k ≤ n ∧ (∀ i, j ≤ i → i < j + k → (r.games i).isSome) ∧
      (k < n → r.games (j + k) = none) ∧
      scanSets r (List.range' j n) acc = some (acc ++ (List.range' j k).map r.setAt) := by
  induction n generalizing j acc with
  | zero => exact ⟨0, le_refl _, by intro i h1 h2; omega, by intro h; omega, by simp [scanSets]⟩
  | succ n ih =>
    rw [List.range'_succ]
    cases hg : r.gamesField j with
    | none =>
      refine ⟨0, by omega, by intro i h1 h2; omega, fun _ => by simp [SlotRecord.games, hg], ?_⟩
      simp [scanSets, hg]
    | some g? =>
      cases g? with
      | none =>
        refine ⟨0, by omega, by intro i h1 h2; omega,
          fun _ => by simp [SlotRecord.games, hg], ?_⟩
        simp [scanSets, hg]
      | some g =>
        have hgj : r.games j = some g := by simp [SlotRecord.games, hg]
        have ht := h j (by simp [hgj])
        obtain ⟨t, ht'⟩ := Option.isSome_iff_exists.mp ht
        have htf : r.tiebreakField j = some (some t) := by
          unfold SlotRecord.tiebreak at ht'
          cases hx : r.tiebreakField j with
          | none => simp [hx] at ht'
          | some y => simp [hx] at ht'; rw [ht']
        obtain ⟨k, hk1, hk2, hk3, hk4⟩ := ih (j + 1)
          (acc.add ⟨(r.idField j).getD "<invalid Value>", r.ID, j, g, t⟩)
        refine ⟨k + 1, by omega, ?_, ?_, ?_⟩
        · intro i h1 h2
          by_cases hij : i = j
          · subst hij; simp [hgj]
          · exact hk2 i (by omega) (by omega)
        · intro hlt
          have := hk3 (by omega)
          rw [← this]; congr 1; omega
        · simp only [SetSlice.add] at hk4
          simp only [scanSets, hg, htf, SetSlice.add, hk4, List.range'_succ, List.map_cons,
            List.append_assoc, List.singleton_append]
          simp [SlotRecord.setAt, hgj, ht']

theorem toSlotSliceLoop_some (sr : List SlotRecord) (result : SlotSlice) (out : SlotSlice)
    (h : List.Forall₂ (fun r s => toSlot r = some s) sr out) :
    toSlotSliceLoop sr result = some (result ++ out) := by
  induction h generalizing result with
  | nil => simp [toSlotSliceLoop]
  | cons h1 _ ih => simp [toSlotSliceLoop, h1, ih, SlotSlice.add]

/-- The lookups by constructed name return the fields of the triple at the same index. -/
theorem fieldsAt (r : SlotRecord) (i : Nat) (hi : i < 5) :
    ∃ id g t, r.setScores[i]? = some (id, g, t) ∧ r.idField (i + 1) = some id ∧
      r.games (i + 1) = g ∧ r.tiebreak (i + 1) = t := by
  match i, hi with
  | 0, _ => exact ⟨r.Set1ID, r.Set1Games, r.Set1Tiebreak, rfl, rfl, rfl, rfl⟩
  | 1, _ => exact ⟨r.Set2ID, r.Set2Games, r.Set2Tiebreak, rfl, rfl, rfl, rfl⟩
  | 2, _ => exact ⟨r.Set3ID, r.Set3Games, r.Set3Tiebreak, rfl, rfl, rfl, rfl⟩
  | 3, _ => exact ⟨r.Set4ID, r.Set4Games, r.Set4Tiebreak, rfl, rfl, rfl, rfl⟩
  | 4, _ => exact ⟨r.Set5ID, r.Set5Games, r.Set5Tiebreak, rfl, rfl, rfl, rfl⟩

theorem games_out_of_range (r : SlotRecord) (i : Nat) (h : i = 0 ∨ 6 ≤ i) :
    r.games i = none := by
  match i, h with
  | 0, _ => rfl
  | 1, h | 2, h | 3, h | 4, h | 5, h => omega
  | n + 6, _ => rfl

/-- The normal form of one record, when every present Games has a present Tiebreak. -/
theorem toSlot_normalizes (r : SlotRecord)
    (h : ∀ t ∈ r.setScores, t.2.1.isSome → t.2.2.isSome) :
    ∃ s, toSlot r = some s ∧ r.NormalizesTo s := by
  have hcode : ∀ i, (r.games i).isSome → (r.tiebreak i).isSome := by
    intro i hg
    by_cases hr : i = 0 ∨ 6 ≤ i
    · rw [games_out_of_range r i hr] at hg; cases hg
    · obtain ⟨j, rfl⟩ : ∃ j, i = j + 1 := ⟨i - 1, by omega⟩
      obtain ⟨id, g, t, hsc, -, hgj, htj⟩ := fieldsAt r j (by omega)
      have := h _ (List.getElem?_mem hsc)
      simp only at this
      rw [htj]; apply this; rw [← hgj]; exact hg
  obtain ⟨k, hk1, hk2, hk3, hk4⟩ := scanSets_range r hcode 5 1 []
  have hk4' : scanSets r [1, 2, 3, 4, 5] [] = some ((List.range' 1 k).map r.setAt) := by
    simpa using hk4
  refine ⟨⟨r.ID, r.DrawID, r.Round, r.Position, r.Name, r.Seed,
    (List.range' 1 k).map r.setAt⟩, by simp only [toSlot, hk4'],
    rfl, rfl, rfl, rfl, rfl, rfl, k, hk1, by simp, ?_, ?_, ?_⟩
  · intro i hik
    obtain ⟨id, g?, t?, hsc, hidf, hgj, htj⟩ := fieldsAt r i (by omega)
    have hg := hk2 (i + 1) (by omega) (by omega)
    have ht := hcode (i + 1) hg
    obtain ⟨g, hg'⟩ := Option.isSome_iff_exists.mp hg
    obtain ⟨t, ht'⟩ := Option.isSome_iff_exists.mp ht
    refine ⟨id, g, t, ?_, ?_⟩
    · rw [hsc, ← hgj, ← htj, hg', ht']
    · simp only [List.getElem?_map]
      have hrange : (List.range' 1 k)[i]? = some (1 + i) := by
        rw [List.getElem?_eq_some_iff]
        exact ⟨by simpa using hik, by simp⟩
      rw [hrange]
      simp only [Option.map_some', Option.some.injEq]
      have e : 1 + i = i + 1 := by omega
      rw [e]
      simp [SlotRecord.setAt, hidf, hg', ht']
  · intro hlt
    obtain ⟨id, g?, t?, hsc, -, hgj, -⟩ := fieldsAt r k hlt
    have hnone := hk3 hlt
    have e : 1 + k = k + 1 := by omega
    rw [e, hgj] at hnone
    exact ⟨id, t?, by rw [hsc, hnone]⟩
  · simp only [List.map_map]
    apply List.map_congr_left
    intro i _
    rfl

/-! ## Lemmas: integer formatting -/

theorem fmtDigitsAux_buf (fuel u : Nat) (buf : List Char) :
    fmtDigitsAux fuel u buf = fmtDigitsAux fuel u [] ++ buf := by
  induction fuel generalizing u buf with
  | zero => simp [fmtDigitsAux]
  | succ f ih =>
    by_cases h : u < 10
    · simp [fmtDigitsAux, h]
    · simp only [fmtDigitsAux, h, if_false]
      rw [ih (u / 10) (Nat.digitChar (u % 10) :: buf), ih (u / 10) [Nat.digitChar (u % 10)]]
      simp

/-- More iterations than `u + 1` do not change the digits. -/
theorem fmtDigits_of_ge (u : Nat) : ∀ fuel, u < fuel → fmtDigitsAux fuel u [] = fmtDigits u := by
  induction u using Nat.strong_induction_on with
  | _ u ih =>
    intro fuel hf
    obtain ⟨f, rfl⟩ : ∃ f, fuel = f + 1 := ⟨fuel - 1, by omega⟩
    unfold fmtDigits
    by_cases h : u < 10
    · simp [fmtDigitsAux, h]
    · simp only [fmtDigitsAux, h, if_false]
      rw [fmtDigitsAux_buf f, fmtDigitsAux_buf u]
      have hlt : u / 10 < u := by omega
      rw [ih (u / 10) hlt f (by omega), ih (u / 10) hlt u hlt]

theorem fmtDigits_eq (u : Nat) :
    fmtDigits u =
      if u < 10 then [Nat.digitChar u] else fmtDigits (u / 10) ++ [Nat.digitChar (u % 10)] := by
  by_cases h : u < 10
  · simp [fmtDigits, fmtDigitsAux, h]
  · simp only [h, if_false]
    conv_lhs => unfold fmtDigits
    simp only [fmtDigitsAux, h, if_false]
    rw [fmtDigitsAux_buf, fmtDigits_of_ge (u / 10) u (by omega)]

theorem digitChar_toNat : ∀ d, d < 10 → (Nat.digitChar d).toNat - 48 = d := by decide

theorem digitChar_ne_dot : ∀ d, d < 10 → Nat.digitChar d ≠ '.' := by decide

theorem digitChar_ne_minus : ∀ d, d < 10 → Nat.digitChar d ≠ '-' := by decide

theorem digitsValue_append (l : List Char) (c : Char) :
    digitsValue (l ++ [c]) = 10 * digitsValue l + (c.toNat - 48) := by
  simp [digitsValue, List.foldl_append]

theorem digitsValue_fmtDigits (u : Nat) : digitsValue (fmtDigits u) = u := by
  induction u using Nat.strong_induction_on with
  | _ u ih =>
    rw [fmtDigits_eq]
    by_cases h : u < 10
    · simp only [h, if_true]
      simp [digitsValue, digitChar_toNat u h]
    · simp only [h, if_false]
      rw [digitsValue_append, ih (u / 10) (by omega), digitChar_toNat _ (Nat.mod_lt _ (by omega))]
      omega

theorem fmtDigits_chars (u : Nat) : ∀ c ∈ fmtDigits u, ∃ d, d < 10 ∧ c = Nat.digitChar d := by
  induction u using Nat.strong_induction_on with
  | _ u ih =>
    rw [fmtDigits_eq]
    by_cases h : u < 10
    · simp only [h, if_true, List.mem_singleton]
      intro c hc; exact ⟨u, h, hc⟩
    · simp only [h, if_false, List.mem_append, List.mem_singleton]
      intro c hc
      rcases hc with hc | hc
      · exact ih (u / 10) (by omega) c hc
      · exact ⟨u % 10, Nat.mod_lt _ (by omega), hc⟩

theorem fmtDigits_ne_nil (u : Nat) : fmtDigits u ≠ [] := by
  rw [fmtDigits_eq]
  by_cases h : u < 10 <;> simp [h]

theorem digitsValue_zeros (n : Nat) (l : List Char) :
    digitsValue (List.replicate n '0' ++ l) = digitsValue l := by
  induction n with
  | zero => simp
  | succ n ih =>
    simp only [digitsValue, List.replicate_succ, List.cons_append, List.foldl_cons] at ih ⊢
    have : 10 * 0 + ('0'.toNat - 48) = 0 := by decide
    rw [this]; exact ih

/-- The digits with their zero padding, for a width `prec`. -/
theorem padded_chars (prec u : Nat) :
    ∀ c ∈ List.replicate (prec - (fmtDigits u).length) '0' ++ fmtDigits u,
      ∃ d, d < 10 ∧ c = Nat.digitChar d := by
  intro c hc
  rcases List.mem_append.mp hc with h | h
  · exact ⟨0, by omega, by rw [(List.mem_replicate.mp h).2]; rfl⟩
  · exact fmtDigits_chars u c h

theorem fmtInteger_chars (v : Int) (wid : Nat) :
    ∀ c ∈ fmtInteger v wid, c = '-' ∨ ∃ d, d < 10 ∧ c = Nat.digitChar d := by
  intro c hc
  unfold fmtInteger at hc
  by_cases hv : v < 0
  · simp only [hv, decide_True, if_true, List.mem_cons] at hc
    rcases hc with h | h
    · exact Or.inl h
    · exact Or.inr (padded_chars _ _ c h)
  · simp only [hv, decide_False, if_false, Bool.false_eq_true] at hc
    exact Or.inr (padded_chars _ _ c hc)

theorem dot_not_mem_fmtInteger (v : Int) (wid : Nat) : '.' ∉ fmtInteger v wid := by
  intro h
  rcases fmtInteger_chars v wid _ h with h1 | ⟨d, hd, h1⟩
  · exact absurd h1 (by decide)
  · exact digitChar_ne_dot d hd h1.symm

/-- Reading back what `fmtInteger` printed gives the integer. -/
theorem parseInteger_fmtInteger (v : Int) (wid : Nat) : parseInteger (fmtInteger v wid) = v := by
  unfold fmtInteger
  by_cases hv : v < 0
  · simp only [hv, decide_True, if_true, parseInteger, digitsValue_zeros, digitsValue_fmtDigits]
    omega
  · simp only [hv, decide_False, if_false, Bool.false_eq_true]
    have hne : List.replicate (wid - (fmtDigits v.natAbs).length) '0' ++ fmtDigits v.natAbs ≠ [] := by
      simp [fmtDigits_ne_nil]
    have hval : (digitsValue
        (List.replicate (wid - (fmtDigits v.natAbs).length) '0' ++ fmtDigits v.natAbs) : Int) = v := by
      rw [digitsValue_zeros, digitsValue_fmtDigits]; omega
    generalize hl : List.replicate (wid - (fmtDigits v.natAbs).length) '0' ++ fmtDigits v.natAbs = l
      at hne hval
    have hch := padded_chars wid v.natAbs
    rw [hl] at hch
    cases l with
    | nil => exact absurd rfl hne
    | cons c rest =>
      obtain ⟨d, hd, hc⟩ := hch c (List.mem_cons_self _ _)
      have hcm : c ≠ '-' := hc ▸ digitChar_ne_minus d hd
      unfold parseInteger
      split
      · rename_i heq
        simp only [List.cons.injEq] at heq
        exact absurd heq.1 hcm
      · exact hval

theorem fmtInteger_injective (wid : Nat) (v w : Int) (h : fmtInteger v wid = fmtInteger w wid) :
    v = w := by
  rw [← parseInteger_fmtInteger v wid, h, parseInteger_fmtInteger]

theorem append_dot_inj (a1 a2 b1 b2 : List Char) (h1 : '.' ∉ a1) (h2 : '.' ∉ a2)
    (h : a1 ++ '.' :: b1 = a2 ++ '.' :: b2) : a1 = a2 ∧ b1 = b2 := by
  induction a1 generalizing a2 with
  | nil =>
    cases a2 with
    | nil => simpa using h
    | cons y ys =>
      simp only [List.nil_append, List.cons_append, List.cons.injEq] at h
      exact absurd (List.mem_cons_self _ _) (h.1 ▸ h2)
  | cons x xs ih =>
    cases a2 with
    | nil =>
      simp only [List.nil_append, List.cons_append, List.cons.injEq] at h
      exact absurd (List.mem_cons_self _ _) (h.1.symm ▸ h1)
    | cons y ys =>
      simp only [List.cons_append, List.cons.injEq] at h
      obtain ⟨hh, ht⟩ := ih ys (fun hm => h1 (List.mem_cons_of_mem _ hm))
        (fun hm => h2 (List.mem_cons_of_mem _ hm)) h.2
      exact ⟨by rw [h.1, hh], ht⟩

theorem getSlotKey_eq_iff (a b : Slot) :
    getSlotKey a = getSlotKey b ↔ a.Round = b.Round ∧ a.Position = b.Position := by
  constructor
  · intro h
    unfold getSlotKey at h
    have h' := congrArg String.data h
    simp only at h'
    obtain ⟨hr, hp⟩ := append_dot_inj _ _ _ _ (dot_not_mem_fmtInteger _ _)
      (dot_not_mem_fmtInteger _ _) h'
    exact ⟨fmtInteger_injective 0 _ _ hr, fmtInteger_injective 3 _ _ hp⟩
  · intro h
    exact getSlotKey_congr a b h.1 h.2

/-! ## Lemmas: the order of keys -/

theorem fmtDigits_small (u : Nat) (h : u < 10) : fmtDigits u = [Nat.digitChar u] := by
  rw [fmtDigits_eq]; simp [h]

theorem pad3_eq (p : Nat) (hp : p < 1000) :
    List.replicate (3 - (fmtDigits p).length) '0' ++ fmtDigits p =
      [Nat.digitChar (p / 100), Nat.digitChar (p / 10 % 10), Nat.digitChar (p % 10)] := by
  by_cases h1 : p < 10
  · have e1 : p / 100 = 0 := by omega
    have e2 : p / 10 % 10 = 0 := by omega
    have e3 : p % 10 = p := by omega
    rw [fmtDigits_small p h1, e1, e2, e3]
    rfl
  · by_cases h2 : p < 100
    · have e1 : p / 100 = 0 := by omega
      have e2 : p / 10 % 10 = p / 10 := by omega
      rw [fmtDigits_eq p, if_neg h1, fmtDigits_small (p / 10) (by omega), e1, e2]
      rfl
    · have e1 : ¬ p / 10 < 10 := by omega
      have e2 : p / 10 / 10 = p / 100 := by omega
      rw [fmtDigits_eq p, if_neg h1, fmtDigits_eq (p / 10), if_neg e1,
        fmtDigits_small (p / 10 / 10) (by omega), e2]
      rfl

/-- The key of a slot with a one-digit round and a position of at most three digits. -/
theorem getSlotKey_small (s : Slot) (r p : Nat) (hr : s.Round = r) (hp : s.Position = p)
    (hr9 : r ≤ 9) (hp999 : p ≤ 999) :
    getSlotKey s =
      String.mk [Nat.digitChar r, '.', Nat.digitChar (p / 100), Nat.digitChar (p / 10 % 10),
        Nat.digitChar (p % 10)] := by
  unfold getSlotKey fmtInteger
  have h1 : ¬ ((r : Int) < 0) := by omega
  have h2 : ¬ ((p : Int) < 0) := by omega
  simp only [hr, hp, h1, h2, decide_False, if_false, Bool.false_eq_true, Int.natAbs_ofNat,
    Nat.zero_sub, List.replicate_zero, List.nil_append]
  rw [pad3_eq p (by omega), fmtDigits_small r (by omega)]
  rfl

theorem lex_cons_iff (a b : Char) (l1 l2 : List Char) :
    List.Lex (· < ·) (a :: l1) (b :: l2) ↔ a < b ∨ (a = b ∧ List.Lex (· < ·) l1 l2) := by
  constructor
  · intro h
    cases h with
    | cons h => exact Or.inr ⟨rfl, h⟩
    | rel h => exact Or.inl h
  · rintro (h | ⟨rfl, h⟩)
    · exact List.Lex.rel h
    · exact List.Lex.cons h

theorem lex_nil_nil : ¬ List.Lex (fun (a b : Char) => a < b) [] [] := by
  intro h; cases h

theorem digitChar_lt_iff : ∀ d, d < 10 → ∀ e, e < 10 →
    (Nat.digitChar d < Nat.digitChar e ↔ d < e) := by decide

theorem digitChar_eq_iff : ∀ d, d < 10 → ∀ e, e < 10 →
    (Nat.digitChar d = Nat.digitChar e ↔ d = e) := by decide

/-- For one-digit rounds and positions of at most three digits the key order is the order of
the pairs (Round, Position). -/
theorem getSlotKey_lt_iff (a b : Slot)
    (ha : 1 ≤ a.Round ∧ a.Round ≤ 9 ∧ 1 ≤ a.Position ∧ a.Position ≤ 999)
    (hb : 1 ≤ b.Round ∧ b.Round ≤ 9 ∧ 1 ≤ b.Position ∧ b.Position ≤ 999) :
    getSlotKey a < getSlotKey b ↔
      a.Round < b.Round ∨ (a.Round = b.Round ∧ a.Position < b.Position) := by
  obtain ⟨r1, hr1⟩ := Int.eq_ofNat_of_zero_le (by omega : 0 ≤ a.Round)
  obtain ⟨p1, hp1⟩ := Int.eq_ofNat_of_zero_le (by omega : 0 ≤ a.Position)
  obtain ⟨r2, hr2⟩ := Int.eq_ofNat_of_zero_le (by omega : 0 ≤ b.Round)
  obtain ⟨p2, hp2⟩ := Int.eq_ofNat_of_zero_le (by omega : 0 ≤ b.Position)
  rw [getSlotKey_small a r1 p1 hr1 hp1 (by omega) (by omega),
    getSlotKey_small b r2 p2 hr2 hp2 (by omega) (by omega)]
  rw [String.lt_iff_toList_lt]
  simp only [String.toList]
  change List.Lex (· < ·) _ _ ↔ _
  simp only [lex_cons_iff, lex_nil_nil, and_false, or_false]
  rw [digitChar_lt_iff r1 (by omega) r2 (by omega), digitChar_eq_iff r1 (by omega) r2 (by omega),
    digitChar_lt_iff (p1 / 100) (by omega) (p2 / 100) (by omega),
    digitChar_eq_iff (p1 / 100) (by omega) (p2 / 100) (by omega),
    digitChar_lt_iff (p1 / 10 % 10) (by omega) (p2 / 10 % 10) (by omega),
    digitChar_eq_iff (p1 / 10 % 10) (by omega) (p2 / 10 % 10) (by omega),
    digitChar_lt_iff (p1 % 10) (by omega) (p2 % 10) (by omega)]
  have hd : ¬ ('.' < '.') := by decide
  simp only [hd, false_or, true_and]
  rw [hr1, hr2, hp1, hp2]
  omega

/-! ## Lemmas: where the emitted Slot records come from -/

theorem mem_updatedSlots (scraped current : SlotSlice) (seeds : String → Option String)
    (u : Slot) (hu : u ∈ (getUpdates scraped current seeds).updatedSlots) :
    ∃ k s c, slotMap scraped k = some s ∧ slotMap current k = some c ∧
      u ∈ slotUpdate seeds s c := by
  rw [getUpdates_eq] at hu
  simp only [List.mem_flatMap] at hu
  obtain ⟨k, -, hu'⟩ := hu
  cases hc : slotMap current k with
  | none => cases hs : slotMap scraped k <;> simp [hc, hs, keyUpdates] at hu'
  | some c =>
    cases hs : slotMap scraped k with
    | none => simp [hc, hs, keyUpdates] at hu'
    | some s =>
      simp only [hc, hs, keyUpdates] at hu'
      exact ⟨k, s, c, hs, hc, hu'⟩

theorem mem_newSlots (scraped current : SlotSlice) (seeds : String → Option String)
    (u : Slot) (hu : u ∈ (getUpdates scraped current seeds).newSlots) :
    u ∈ scraped ∧ getSlotKey u ∉ current.map getSlotKey := by
  rw [getUpdates_eq] at hu
  simp only [List.mem_flatMap] at hu
  obtain ⟨k, hk, hu'⟩ := hu
  cases hc : slotMap current k with
  | some c => cases hs : slotMap scraped k <;> simp [hc, hs, keyUpdates] at hu'
  | none =>
    have hkc := (slotMap_eq_none _ _).mp hc
    have hks : k ∈ scraped.map getSlotKey := by
      rcases (mem_sortedKeys _ _ _).mp hk with h | h
      · exact h
      · exact absurd h hkc
    obtain ⟨s, hs⟩ : ∃ s, slotMap scraped k = some s := by
      rw [← Option.isSome_iff_exists, slotMap_isSome]; exact hks
    simp only [hc, hs, keyUpdates, Option.getD_some, List.mem_singleton] at hu'
    subst hu'
    have := slotMap_some scraped k u hs
    exact ⟨this.1, this.2 ▸ hkc⟩

theorem newSlots_keys_sublist (scraped current : SlotSlice) (seeds : String → Option String) :
    ((getUpdates scraped current seeds).newSlots.map getSlotKey).Sublist
      (sortedKeys scraped current) := by
  rw [getUpdates_eq]
  simp only
  refine map_key_flatMap_sublist _ _ ?_
  intro k hk
  cases hc : slotMap current k with
  | some c =>
    left
    cases hsk : slotMap scraped k <;> simp [keyUpdates]
  | none =>
    right
    have hks : k ∈ scraped.map getSlotKey := by
      rcases (mem_sortedKeys _ _ _).mp hk with h | h
      · exact h
      · exact absurd h ((slotMap_eq_none _ _).mp hc)
    obtain ⟨s, hs'⟩ : ∃ s, slotMap scraped k = some s := by
      rw [← Option.isSome_iff_exists, slotMap_isSome]; exact hks
    exact ⟨s, by simp [hs', keyUpdates], (slotMap_some scraped k s hs').2⟩

theorem updatedSlots_keys_sublist (scraped current : SlotSlice)
    (seeds : String → Option String) :
    ((getUpdates scraped current seeds).updatedSlots.map getSlotKey).Sublist
      (sortedKeys scraped current) := by
  rw [getUpdates_eq]
  simp only
  refine map_key_flatMap_sublist _ _ ?_
  intro k _
  cases hc : slotMap current k with
  | none => left; cases hs : slotMap scraped k <;> simp [keyUpdates]
  | some c =>
    cases hs : slotMap scraped k with
    | none => left; simp [keyUpdates]
    | some s =>
      simp only [keyUpdates, slotUpdate]
      by_cases h1 : s.Name = ""
      · left; simp [h1]
      · by_cases h2 : s.Name = c.Name ∧ (seeds s.Name).getD "" = c.Seed
        · left; simp only [if_neg h1, if_pos h2]
        · right
          simp only [if_neg h1, if_neg h2]
          refine ⟨_, rfl, ?_⟩
          exact (getSlotKey_congr _ c rfl rfl).trans (slotMap_some current k c hc).2

theorem sorted_of_keys_sorted (l : SlotSlice) (h : (l.map getSlotKey).Sorted (· < ·))
    (hr : ∀ s ∈ l, 1 ≤ s.Round ∧ s.Round ≤ 9 ∧ 1 ≤ s.Position ∧ s.Position ≤ 999) :
    l.Sorted (fun a b => a.Round < b.Round ∨ (a.Round = b.Round ∧ a.Position < b.Position)) := by
  have h' : l.Pairwise (fun a b => getSlotKey a < getSlotKey b) := List.pairwise_map.mp h
  exact h'.imp_of_mem (fun {a b} ha hb hab => (getSlotKey_lt_iff a b (hr a ha) (hr b hb)).mp hab)

/-! ## Lemmas: applying the outputs to the store -/

theorem extraNewSets_eq_drop (ss cs : List Set) (owner : String) :
    extraNewSets ss cs owner =
      (ss.drop cs.length).map fun a => ⟨"", owner, a.Number, a.Games, a.Tiebreak⟩ := by
  induction ss using List.reverseRecOn with
  | nil => simp [extraNewSets]
  | append_singleton l a ih =>
    rw [extraNewSets_append, ih]
    by_cases h : cs.length ≤ l.length
    · rw [if_pos h, List.drop_append_of_le_length h]
      simp
    · rw [if_neg h]
      have h1 : l.drop cs.length = [] := List.drop_eq_nil_of_le (by omega)
      have h2 : (l ++ [a]).drop cs.length = [] :=
        List.drop_eq_nil_of_le (by simp; omega)
      rw [h1, h2]
      rfl

theorem newSlots_perm (scraped current : SlotSlice) (seeds : String → Option String)
    (hs : (scraped.map getSlotKey).Nodup) :
    (getUpdates scraped current seeds).newSlots.Perm
      (scraped.filter (fun s => decide (getSlotKey s ∉ current.map getSlotKey))) := by
  rw [getUpdates_eq_scraped]
  simp only
  refine ((sortedKeys_perm_scraped scraped hs).flatMap_right _).trans ?_
  rw [List.flatMap_map, ← flatMap_ite_eq_filter]
  apply List.Perm.of_eq
  apply List.flatMap_congr
  intro s hsm
  rw [slotMap_of_nodup scraped hs s hsm]
  by_cases hc : getSlotKey s ∈ current.map getSlotKey
  · obtain ⟨c, hc'⟩ : ∃ c, slotMap current (getSlotKey s) = some c := by
      rw [← Option.isSome_iff_exists, slotMap_isSome]; exact hc
    simp [hc', hc, keyUpdates]
  · have hc' : slotMap current (getSlotKey s) = none := (slotMap_eq_none _ _).mpr hc
    simp [hc', hc, keyUpdates]

theorem slotMap_map (l : SlotSlice) (g : Slot → Slot)
    (hg : ∀ c, getSlotKey (g c) = getSlotKey c) (k : String) :
    slotMap (l.map g) k = (slotMap l k).map g := by
  induction l using List.reverseRecOn with
  | nil => simp [slotMap]
  | append_singleton l t ih =>
    rw [List.map_append, List.map_singleton, slotMap_append, slotMap_append, hg]
    by_cases h : k = getSlotKey t
    · simp [mapInsert, h]
    · simp only [mapInsert, h, if_false, ih]

theorem getSlotKey_persistNewSlot (setID : Set → String) (id : String) (s : Slot) :
    getSlotKey (persistNewSlot setID id s) = getSlotKey s :=
  getSlotKey_congr _ _ rfl rfl

theorem getSlotKey_applyToSlot (setID : Set → String) (u : Updates) (c : Slot) :
    getSlotKey (applyToSlot setID u c) = getSlotKey c := by
  unfold applyToSlot
  cases u.updatedSlots.find? (fun y => y.ID = c.ID) <;> exact getSlotKey_congr _ _ rfl rfl

theorem mem_insertNewSlots (fresh : Nat → String) (setID : Set → String) (l : SlotSlice)
    (i : Nat) (t : Slot) (h : t ∈ insertNewSlots fresh setID i l) :
    ∃ j, ∃ s ∈ l, t = persistNewSlot setID (fresh j) s := by
  induction l generalizing i with
  | nil => simp [insertNewSlots] at h
  | cons x xs ih =>
    simp only [insertNewSlots, List.mem_cons] at h
    rcases h with h | h
    · exact ⟨i, x, List.mem_cons_self _ _, h⟩
    · obtain ⟨j, s, hs, ht⟩ := ih (i + 1) h
      exact ⟨j, s, List.mem_cons_of_mem _ hs, ht⟩

theorem map_key_insertNewSlots (fresh : Nat → String) (setID : Set → String) (l : SlotSlice)
    (i : Nat) : (insertNewSlots fresh setID i l).map getSlotKey = l.map getSlotKey := by
  induction l generalizing i with
  | nil => rfl
  | cons x xs ih =>
    simp only [insertNewSlots, List.map_cons, ih, getSlotKey_persistNewSlot]

theorem index_of_id (l : List Set) (h : (l.map fun x => x.ID).Nodup) (i j : Nat) (b1 b2 : Set)
    (hb1 : l[i]? = some b1) (hb2 : l[j]? = some b2) (hid : b1.ID = b2.ID) : i = j := by
  induction l generalizing i j with
  | nil => simp at hb1
  | cons x xs ih =>
    rw [List.map_cons, List.nodup_cons] at h
    cases i with
    | zero =>
      cases j with
      | zero => rfl
      | succ j =>
        simp only [List.getElem?_cons_zero, Option.some.injEq] at hb1
        simp only [List.getElem?_cons_succ] at hb2
        subst hb1
        exact absurd (List.mem_map.mpr ⟨b2, List.getElem?_mem hb2, hid.symm⟩) h.1
    | succ i =>
      cases j with
      | zero =>
        simp only [List.getElem?_cons_zero, Option.some.injEq] at hb2
        simp only [List.getElem?_cons_succ] at hb1
        subst hb2
        exact absurd (List.mem_map.mpr ⟨b1, List.getElem?_mem hb1, hid⟩) h.1
      | succ j =>
        simp only [List.getElem?_cons_succ] at hb1 hb2
        rw [ih h.2 i j hb1 hb2]

/-- Storage IDs that are pairwise distinct over all sets of all slots identify the slot and
the index of a set. -/
theorem set_position_of_id (l : SlotSlice)
    (h : ((l.flatMap fun c => c.Sets).map fun x => x.ID).Nodup)
    (c1 c2 : Slot) (h1 : c1 ∈ l) (h2 : c2 ∈ l) (i j : Nat) (b1 b2 : Set)
    (hb1 : c1.Sets[i]? = some b1) (hb2 : c2.Sets[j]? = some b2) (hid : b1.ID = b2.ID) :
    c1 = c2 ∧ i = j := by
  induction l with
  | nil => simp at h1
  | cons c rest ih =>
    rw [List.flatMap_cons, List.map_append, List.nodup_append] at h
    obtain ⟨hn1, hn2, hdisj⟩ := h
    have hm1 : b1 ∈ c1.Sets := List.getElem?_mem hb1
    have hm2 : b2 ∈ c2.Sets := List.getElem?_mem hb2
    have inrest : ∀ (c' : Slot) (b : Set), c' ∈ rest → b ∈ c'.Sets →
        b.ID ∈ (rest.flatMap fun c => c.Sets).map fun x => x.ID := by
      intro c' b hc' hb
      exact List.mem_map.mpr ⟨b, List.mem_flatMap.mpr ⟨c', hc', hb⟩, rfl⟩
    rcases List.mem_cons.mp h1 with e1 | e1 <;> rcases List.mem_cons.mp h2 with e2 | e2
    · refine ⟨e1.trans e2.symm, ?_⟩
      rw [e1] at hb1
      rw [e2] at hb2
      exact index_of_id c.Sets hn1 i j b1 b2 hb1 hb2 hid
    · rw [e1] at hm1
      exact absurd (inrest c2 b2 e2 hm2)
        (fun hmem => hdisj (List.mem_map.mpr ⟨b1, hm1, hid⟩) hmem)
    · rw [e2] at hm2
      exact absurd (inrest c1 b1 e1 hm1)
        (fun hmem => hdisj (List.mem_map.mpr ⟨b2, hm2, hid.symm⟩) hmem)
    · exact ih hn2 e1 e2

theorem filter_flatMap_of_key {α : Type} (keys : List String) (f : String → List α)
    (p : α → Bool) (k : String) (hnd : keys.Nodup) (hk : k ∈ keys)
    (hother : ∀ k' ∈ keys, k' ≠ k → ∀ y ∈ f k', p y = false)
    (hself : ∀ y ∈ f k, p y = true) :
    (keys.flatMap f).filter p = f k := by
  induction keys with
  | nil => simp at hk
  | cons x xs ih =>
    rw [List.nodup_cons] at hnd
    rw [List.flatMap_cons, List.filter_append]
    by_cases hx : x = k
    · subst hx
      have h1 : (f x).filter p = f x := List.filter_eq_self.mpr hself
      have h2 : (xs.flatMap f).filter p = [] := by
        rw [List.filter_eq_nil_iff]
        intro y hy
        obtain ⟨k', hk', hy'⟩ := List.mem_flatMap.mp hy
        have hne : k' ≠ x := fun e => hnd.1 (e ▸ hk')
        simp [hother k' (List.mem_cons_of_mem _ hk') hne y hy']
      rw [h1, h2, List.append_nil]
    · have hk' : k ∈ xs := by
        rcases List.mem_cons.mp hk with h | h
        · exact absurd h.symm hx
        · exact h
      have h1 : (f x).filter p = [] := by
        rw [List.filter_eq_nil_iff]
        intro y hy
        simp [hother x (List.mem_cons_self _ _) hx y hy]
      rw [h1, List.nil_append]
      exact ih hnd.2 hk' (fun k' hk'' => hother k' (List.mem_cons_of_mem _ hk''))

theorem mem_pairedSetUpdates (ss cs : List Set) (owner : String) (y : Set) :
    y ∈ pairedSetUpdates ss cs owner ↔
      ∃ (i : Nat) (a b : Set), ss[i]? = some a ∧ cs[i]? = some b ∧ a.Number = b.Number ∧
        (a.Games ≠ b.Games ∨ a.Tiebreak ≠ b.Tiebreak) ∧
        y = ⟨b.ID, owner, a.Number, a.Games, a.Tiebreak⟩ := by
  unfold pairedSetUpdates
  rw [List.mem_filterMap]
  constructor
  · rintro ⟨i, -, hi⟩
    cases ha : ss[i]? with
    | none => simp [ha] at hi
    | some a =>
      cases hb : cs[i]? with
      | none => simp [ha, hb] at hi
      | some b =>
        simp only [ha, hb] at hi
        by_cases hcond : a.Number = b.Number ∧ (a.Games ≠ b.Games ∨ a.Tiebreak ≠ b.Tiebreak)
        · rw [if_pos hcond] at hi
          exact ⟨i, a, b, ha, hb, hcond.1, hcond.2, (Option.some.inj hi).symm⟩
        · rw [if_neg hcond] at hi
          cases hi
  · rintro ⟨i, a, b, ha, hb, hn, hg, hy⟩
    refine ⟨i, ?_, ?_⟩
    · rw [List.mem_range]
      have h1 := (List.getElem?_eq_some_iff.mp ha).1
      have h2 := (List.getElem?_eq_some_iff.mp hb).1
      omega
    · simp only [ha, hb]
      rw [if_pos ⟨hn, hg⟩, hy]

theorem mem_updatedSets (scraped current : SlotSlice) (seeds : String → Option String)
    (y : Set) (hy : y ∈ (getUpdates scraped current seeds).updatedSets) :
    ∃ k s c, slotMap scraped k = some s ∧ slotMap current k = some c ∧
      y ∈ pairedSetUpdates s.Sets c.Sets c.ID := by
  rw [getUpdates_eq] at hy
  simp only [List.mem_flatMap] at hy
  obtain ⟨k, -, hy'⟩ := hy
  cases hc : slotMap current k with
  | none => cases hs : slotMap scraped k <;> simp [hc, hs, keyUpdates] at hy'
  | some c =>
    cases hs : slotMap scraped k with
    | none => simp [hc, hs, keyUpdates] at hy'
    | some s =>
      simp only [hc, hs, keyUpdates] at hy'
      exact ⟨k, s, c, hs, hc, hy'⟩

theorem slotUpdate_subset (scraped current : SlotSlice) (seeds : String → Option String)
    (k : String) (s c : Slot) (hs : slotMap scraped k = some s) (hc : slotMap current k = some c)
    (y : Slot) (hy : y ∈ slotUpdate seeds s c) :
    y ∈ (getUpdates scraped current seeds).updatedSlots := by
  rw [getUpdates_eq]
  simp only [List.mem_flatMap]
  refine ⟨k, ?_, by simpa [hs, hc, keyUpdates] using hy⟩
  rw [mem_sortedKeys, ← slotMap_isSome, hs]
  exact Or.inl rfl

theorem pairedSetUpdates_subset (scraped current : SlotSlice) (seeds : String → Option String)
    (k : String) (s c : Slot) (hs : slotMap scraped k = some s) (hc : slotMap current k = some c)
    (y : Set) (hy : y ∈ pairedSetUpdates s.Sets c.Sets c.ID) :
    y ∈ (getUpdates scraped current seeds).updatedSets := by
  rw [getUpdates_eq]
  simp only [List.mem_flatMap]
  refine ⟨k, ?_, by simpa [hs, hc, keyUpdates] using hy⟩
  rw [mem_sortedKeys, ← slotMap_isSome, hs]
  exact Or.inl rfl

/-- With distinct storage IDs, the slot at a key is the only current slot with its ID. -/
theorem key_of_current_id (current : SlotSlice) (hid : (current.map fun c => c.ID).Nodup)
    (k k' : String) (c c' : Slot) (hc : slotMap current k = some c)
    (hc' : slotMap current k' = some c') (h : c'.ID = c.ID) : k' = k ∧ c' = c := by
  have h1 := slotMap_some current k c hc
  have h2 := slotMap_some current k' c' hc'
  have e : c' = c := List.inj_on_of_nodup_map hid h2.1 h1.1 h
  exact ⟨by rw [← h2.2, e, h1.2], e⟩

/-- The updated Slots with the storage ID of the current slot at a key are those for the key. -/
theorem updatedSlots_of_id (scraped current : SlotSlice) (seeds : String → Option String)
    (hid : (current.map fun c => c.ID).Nodup)
    (k : String) (s c : Slot) (hs : slotMap scraped k = some s) (hc : slotMap current k = some c)
    (y : Slot) (hy : y ∈ (getUpdates scraped current seeds).updatedSlots) (hyid : y.ID = c.ID) :
    y ∈ slotUpdate seeds s c := by
  obtain ⟨k', s', c', hs', hc', hmem⟩ := mem_updatedSlots scraped current seeds y hy
  have h1 := (slotUpdate_key seeds s' c' y hmem).2
  obtain ⟨ek, ec⟩ := key_of_current_id current hid k k' c c' hc hc' (h1.symm.trans hyid)
  subst ek
  rw [hs] at hs'
  cases hs'
  rw [← ec]; exact hmem

/-- The new Sets owned by the storage ID of the current slot at a key are those for the key. -/
theorem newSets_of_owner (scraped current : SlotSlice) (seeds : String → Option String)
    (hid : (current.map fun c => c.ID).Nodup)
    (hscr : ∀ s ∈ scraped, ∀ c ∈ current, s.ID ≠ c.ID)
    (k : String) (s c : Slot) (hs : slotMap scraped k = some s)
    (hc : slotMap current k = some c) :
    (getUpdates scraped current seeds).newSets.filter (fun y => y.DrawSlotID = c.ID) =
      extraNewSets s.Sets c.Sets c.ID := by
  rw [getUpdates_eq]
  simp only
  have hk : k ∈ sortedKeys scraped current := by
    rw [mem_sortedKeys, ← slotMap_isSome, hs]; exact Or.inl rfl
  rw [filter_flatMap_of_key _ _ _ k (sortedKeys_nodup _ _) hk]
  · simp [hs, hc, keyUpdates]
  · intro k' hk' hne y hy
    simp only [decide_eq_false_iff_not]
    intro hown
    cases hc' : slotMap current k' with
    | none =>
      have hks : k' ∈ scraped.map getSlotKey := by
        rcases (mem_sortedKeys _ _ _).mp hk' with h | h
        · exact h
        · exact absurd h ((slotMap_eq_none _ _).mp hc')
      obtain ⟨s', hs'⟩ : ∃ s', slotMap scraped k' = some s' := by
        rw [← Option.isSome_iff_exists, slotMap_isSome]; exact hks
      simp only [hc', hs', keyUpdates, Option.getD_some, freshSlotSets, List.mem_map] at hy
      obtain ⟨a, -, ha⟩ := hy
      rw [← ha] at hown
      exact hscr s' (slotMap_some scraped k' s' hs').1 c (slotMap_some current k c hc).1 hown
    | some c' =>
      cases hs' : slotMap scraped k' with
      | none => simp [hc', hs', keyUpdates] at hy
      | some s' =>
        simp only [hc', hs', keyUpdates, extraNewSets_eq_drop, List.mem_map] at hy
        obtain ⟨a, -, ha⟩ := hy
        rw [← ha] at hown
        exact hne (key_of_current_id current hid k k' c c' hc hc' hown).1
  · intro y hy
    simp only [hs, hc, keyUpdates, extraNewSets_eq_drop, List.mem_map] at hy
    obtain ⟨a, -, ha⟩ := hy
    simp [← ha]

/-- An updated Set with the storage ID of the set at index `i` of the current slot at a key
carries the scores of the scraped set at index `i`. -/
theorem updatedSets_of_id (scraped current : SlotSlice) (seeds : String → Option String)
    (hsid : ((current.flatMap fun c => c.Sets).map fun x => x.ID).Nodup)
    (k : String) (s c : Slot) (hs : slotMap scraped k = some s) (hc : slotMap current k = some c)
    (i : Nat) (b : Set) (hb : c.Sets[i]? = some b)
    (y : Set) (hy : y ∈ (getUpdates scraped current seeds).updatedSets) (hyid : y.ID = b.ID) :
    ∃ a, s.Sets[i]? = some a ∧ y.Games = a.Games ∧ y.Tiebreak = a.Tiebreak := by
  obtain ⟨k', s', c', hs', hc', hmem⟩ := mem_updatedSets scraped current seeds y hy
  obtain ⟨i', a', b', ha', hb', -, -, hy'⟩ := (mem_pairedSetUpdates _ _ _ _).mp hmem
  have hc1 := slotMap_some current k c hc
  have hc2 := slotMap_some current k' c' hc'
  have hidb : b'.ID = b.ID := by rw [← hyid, hy']
  obtain ⟨ec, ei⟩ := set_position_of_id current hsid c' c hc2.1 hc1.1 i' i b' b hb' hb hidb
  have ek : k' = k := by rw [← hc2.2, ec, hc1.2]
  subst ek; subst ei
  rw [hs] at hs'
  cases hs'
  exact ⟨a', ha', by rw [hy'], by rw [hy']⟩

theorem slotUpdate_eq_nil_iff (seeds : String → Option String) (s c : Slot) :
    slotUpdate seeds s c = [] ↔
      s.Name = "" ∨ (s.Name = c.Name ∧ (seeds s.Name).getD "" = c.Seed) := by
  unfold slotUpdate
  by_cases h1 : s.Name = ""
  · simp [h1]
  · by_cases h2 : s.Name = c.Name ∧ (seeds s.Name).getD "" = c.Seed
    · simp only [if_neg h1, if_pos h2, true_iff]; exact Or.inr h2
    · simp only [if_neg h1, if_neg h2]
      constructor
      · intro h; cases h
      · rintro (h | h)
        · exact absurd h h1
        · exact absurd h h2

theorem extraNewSets_eq_nil_of_le (ss cs : List Set) (owner : String)
    (h : ss.length ≤ cs.length) : extraNewSets ss cs owner = [] := by
  rw [extraNewSets_eq_drop, List.drop_eq_nil_of_le h]
  rfl

theorem applyToSlot_Sets (setID : Set → String) (u : Updates) (c : Slot) :
    (applyToSlot setID u c).Sets =
      c.Sets.map (applySetUpdates u.updatedSets) ++
        (u.newSets.filter fun y => y.DrawSlotID = c.ID).map fun y => { y with ID := setID y } := by
  unfold applyToSlot
  cases u.updatedSlots.find? (fun y => y.ID = c.ID) <;> rfl

/-- After the outputs are applied, name and seed of a stored slot need no further update. -/
theorem slotUpdate_applyToSlot (scraped current : SlotSlice) (seeds : String → Option String)
    (setID : Set → String) (hid : (current.map fun c => c.ID).Nodup)
    (k : String) (s c : Slot) (hs : slotMap scraped k = some s)
    (hc : slotMap current k = some c) :
    slotUpdate seeds s (applyToSlot setID (getUpdates scraped current seeds) c) = [] := by
  rw [slotUpdate_eq_nil_iff]
  by_cases hn : s.Name = ""
  · exact Or.inl hn
  · right
    unfold applyToSlot
    cases hfind : (getUpdates scraped current seeds).updatedSlots.find? (fun y => y.ID = c.ID) with
    | none =>
      simp only
      by_contra hne
      have hmem : (⟨c.ID, c.DrawID, c.Round, c.Position, s.Name, (seeds s.Name).getD "", s.Sets⟩ :
          Slot) ∈ slotUpdate seeds s c := by
        unfold slotUpdate
        rw [if_neg hn, if_neg hne]
        exact List.mem_singleton.mpr rfl
      have hin := slotUpdate_subset scraped current seeds k s c hs hc _ hmem
      have := List.find?_eq_none.mp hfind _ hin
      simp at this
    | some y =>
      simp only
      have hy1 := List.mem_of_find?_eq_some hfind
      have hy2 : y.ID = c.ID := by simpa using List.find?_some hfind
      have hy3 := updatedSlots_of_id scraped current seeds hid k s c hs hc y hy1 hy2
      unfold slotUpdate at hy3
      split_ifs at hy3
      · simp at hy3
      · simp only [List.mem_singleton] at hy3
        rw [hy3]
        exact ⟨rfl, rfl⟩

/-- After the outputs are applied, the sets of a stored slot need no further records. -/
theorem sets_applyToSlot (scraped current : SlotSlice) (seeds : String → Option String)
    (setID : Set → String) (hid : (current.map fun c => c.ID).Nodup)
    (hsid : ((current.flatMap fun c => c.Sets).map fun x => x.ID).Nodup)
    (hscr : ∀ s ∈ scraped, ∀ c ∈ current, s.ID ≠ c.ID)
    (k : String) (s c : Slot) (hs : slotMap scraped k = some s)
    (hc : slotMap current k = some c) (owner : String) :
    extraNewSets s.Sets (applyToSlot setID (getUpdates scraped current seeds) c).Sets owner = [] ∧
      pairedSetUpdates s.Sets (applyToSlot setID (getUpdates scraped current seeds) c).Sets
        owner = [] := by
  rw [applyToSlot_Sets, newSets_of_owner scraped current seeds hid hscr k s c hs hc]
  constructor
  · apply extraNewSets_eq_nil_of_le
    simp only [List.length_append, List.length_map, extraNewSets_eq_drop, List.length_drop]
    omega
  · rw [List.eq_nil_iff_forall_not_mem]
    intro y hy
    obtain ⟨i, a, b', ha, hb', hnum, hdiff, -⟩ := (mem_pairedSetUpdates _ _ _ _).mp hy
    by_cases hi : i < c.Sets.length
    · rw [List.getElem?_append_left (by simpa using hi), List.getElem?_map] at hb'
      obtain ⟨b, hb, hbb⟩ : ∃ b, c.Sets[i]? = some b ∧
          applySetUpdates (getUpdates scraped current seeds).updatedSets b = b' := by
        cases hx : c.Sets[i]? with
        | none => simp [hx] at hb'
        | some b => exact ⟨b, rfl, by simpa [hx] using hb'⟩
      unfold applySetUpdates at hbb
      cases hfind : (getUpdates scraped current seeds).updatedSets.find?
          (fun y => y.ID = b.ID) with
      | some y' =>
        rw [hfind] at hbb
        simp only at hbb
        have hy1 := List.mem_of_find?_eq_some hfind
        have hy2 : y'.ID = b.ID := by simpa using List.find?_some hfind
        obtain ⟨a0, ha0, hg, ht⟩ :=
          updatedSets_of_id scraped current seeds hsid k s c hs hc i b hb y' hy1 hy2
        rw [ha] at ha0
        cases ha0
        rw [← hbb] at hdiff
        simp only [hg, ht, ne_eq, not_true_eq_false, or_self] at hdiff
      | none =>
        rw [hfind] at hbb
        simp only at hbb
        subst hbb
        have hmem : (⟨b.ID, c.ID, a.Number, a.Games, a.Tiebreak⟩ : Set) ∈
            pairedSetUpdates s.Sets c.Sets c.ID :=
          (mem_pairedSetUpdates _ _ _ _).mpr ⟨i, a, b, ha, hb, hnum, hdiff, rfl⟩
        have hin := pairedSetUpdates_subset scraped current seeds k s c hs hc _ hmem
        have := List.find?_eq_none.mp hfind _ hin
        simp at this
    · rw [List.getElem?_append_right (by simpa using Nat.le_of_not_lt hi)] at hb'
      simp only [List.length_map, List.getElem?_map, extraNewSets_eq_drop,
        List.getElem?_drop] at hb'
      have hidx : c.Sets.length + (i - c.Sets.length) = i := by omega
      rw [hidx, ha] at hb'
      simp only [Option.map_some', Option.some.injEq] at hb'
      rw [← hb'] at hdiff
      simp at hdiff

/-- A newly inserted slot needs no further records when its seed agrees with the lookup. -/
theorem keyUpdates_persistNewSlot (seeds : String → Option String) (setID : Set → String)
    (id : String) (s : Slot) (hseed : s.Name ≠ "" → (seeds s.Name).getD "" = s.Seed) :
    keyUpdates seeds (some s) (some (persistNewSlot setID id s)) = ⟨[], [], [], []⟩ := by
  simp only [keyUpdates, Updates.mk.injEq, true_and]
  refine ⟨?_, ?_, ?_⟩
  · rw [slotUpdate_eq_nil_iff]
    by_cases hn : s.Name = ""
    · exact Or.inl hn
    · exact Or.inr ⟨rfl, hseed hn⟩
  · apply extraNewSets_eq_nil_of_le
    simp [persistNewSlot, freshSlotSets]
  · rw [List.eq_nil_iff_forall_not_mem]
    intro y hy
    obtain ⟨i, a, b', ha, hb', -, hdiff, -⟩ := (mem_pairedSetUpdates _ _ _ _).mp hy
    simp only [persistNewSlot, freshSlotSets, List.map_map, List.getElem?_map, ha,
      Option.map_some', Option.some.injEq, Function.comp_apply] at hb'
    rw [← hb'] at hdiff
    simp at hdiff

/-- C1 (scraped-only and current-only keys). When the scraped keys are pairwise distinct, the
new Slots of `getUpdates` are the scraped slots whose key occurs in no current slot, each
unchanged, in ascending order of key; removing from `current` a slot whose key occurs in no
scraped slot leaves the four sequences unchanged; and when no key is shared, the new Slots
are all the scraped slots and there are no updated Slots and no updated Sets. -/
theorem new_slots_scraped_only (scraped current : SlotSlice) (seeds : String → Option String)
    (hs : (scraped.map getSlotKey).Nodup) :
    (getUpdates scraped current seeds).newSlots.Perm
        (scraped.filter (fun s => decide (getSlotKey s ∉ current.map getSlotKey))) ∧
      ((getUpdates scraped current seeds).newSlots.map getSlotKey).Sorted (· < ·) ∧
      (∀ l1 l2 c, current = l1 ++ c :: l2 → getSlotKey c ∉ scraped.map getSlotKey →
        getUpdates scraped (l1 ++ l2) seeds = getUpdates scraped current seeds) ∧
      ((∀ s ∈ scraped, ∀ c ∈ current, getSlotKey s ≠ getSlotKey c) →
        (getUpdates scraped current seeds).newSlots.Perm scraped ∧
        (getUpdates scraped current seeds).updatedSlots = [] ∧
        (getUpdates scraped current seeds).updatedSets = []) := by
  have hnew := newSlots_perm scraped current seeds hs
  refine ⟨hnew, ?_, ?_, ?_⟩
  · exact (sortedKeys_sorted scraped current).sublist (newSlots_keys_sublist _ _ _)
  · intro l1 l2 c hcur hck
    subst hcur
    apply getUpdates_congr_current
    intro k hk
    have hne : k ≠ getSlotKey c := fun h => hck (h ▸ hk)
    exact (slotMap_remove l1 l2 c k hne).symm
  · intro hdisj
    have hall : ∀ k ∈ sortedKeys scraped [], slotMap current k = none := by
      intro k hk
      rw [slotMap_eq_none]
      intro hkc
      have hks : k ∈ scraped.map getSlotKey := by simpa [mem_sortedKeys] using hk
      obtain ⟨s, hsm, hsk⟩ := List.mem_map.mp hks
      obtain ⟨c, hcm, hckk⟩ := List.mem_map.mp hkc
      exact hdisj s hsm c hcm (hsk.trans hckk.symm)
    refine ⟨?_, ?_, ?_⟩
    · refine hnew.trans (List.Perm.of_eq ?_)
      rw [List.filter_eq_self]
      intro s hsm
      simp only [decide_eq_true_eq]
      intro hkc
      obtain ⟨c, hcm, hckk⟩ := List.mem_map.mp hkc
      exact hdisj s hsm c hcm hckk.symm
    · rw [getUpdates_eq_scraped]
      simp only [List.flatMap_eq_nil_iff]
      intro k hk
      rw [hall k hk]
      cases slotMap scraped k <;> rfl
    · rw [getUpdates_eq_scraped]
      simp only [List.flatMap_eq_nil_iff]
      intro k hk
      rw [hall k hk]
      cases slotMap scraped k <;> rfl

/-- An instance of `new_slots_scraped_only`: two scraped slots, one of them stored. -/
theorem new_slots_scraped_only_witness :
    (getUpdates [⟨"", "d", 2, 1, "B", "", []⟩, ⟨"", "d", 1, 1, "A", "", []⟩]
        [⟨"id1", "d", 1, 1, "A", "", []⟩, ⟨"id9", "d", 1, 2, "C", "", []⟩]
        (fun _ => none)).newSlots.Perm
      ([⟨"", "d", 2, 1, "B", "", []⟩, ⟨"", "d", 1, 1, "A", "", []⟩].filter
        (fun s => decide (getSlotKey s ∉
          ([⟨"id1", "d", 1, 1, "A", "", []⟩, ⟨"id9", "d", 1, 2, "C", "", []⟩] :
            SlotSlice).map getSlotKey))) :=
  (new_slots_scraped_only [⟨"", "d", 2, 1, "B", "", []⟩, ⟨"", "d", 1, 1, "A", "", []⟩]
    [⟨"id1", "d", 1, 1, "A", "", []⟩, ⟨"id9", "d", 1, 2, "C", "", []⟩]
    (fun _ => none) (by decide)).1

/-- C2 (set reconciliation by index). With keys unique within each collection, the updated
Sets of `getUpdates` are, key by key in ascending order, for a key with scraped slot `s` and
current slot `c` exactly `pairedSetUpdates` (one record per index `i < min m n` with equal
Numbers and different Games or Tiebreak, carrying `c[i]`'s ID, owner `c.ID` and `s[i]`'s
Number, Games, Tiebreak) and nothing for other keys; the new Sets are for such a key exactly
`extraNewSets` (one record per index `n ≤ i < m`, no ID, owner `c.ID`, `s[i]`'s values), and
for a scraped-only key the sets of the new slot. With current Numbers `[1,2]` and scraped
Numbers `[1,2,3]` the new Sets of the slot are one record, Number 3, owned by `c.ID`. -/
theorem set_records_by_index (scraped current : SlotSlice) (seeds : String → Option String)
    (hs : (scraped.map getSlotKey).Nodup) (hc : (current.map getSlotKey).Nodup) :
    (getUpdates scraped current seeds).updatedSets =
        (sortedKeys scraped current).flatMap (fun k =>
          match scraped.find? (fun s => getSlotKey s = k),
            current.find? (fun c => getSlotKey c = k) with
          | some s, some c => pairedSetUpdates s.Sets c.Sets c.ID
          | _, _ => []) ∧
      (getUpdates scraped current seeds).newSets =
        (sortedKeys scraped current).flatMap (fun k =>
          match scraped.find? (fun s => getSlotKey s = k),
            current.find? (fun c => getSlotKey c = k) with
          | some s, some c => extraNewSets s.Sets c.Sets c.ID
          | some s, none => freshSlotSets s
          | none, _ => []) ∧
      ∀ s ∈ scraped, ∀ c ∈ current, getSlotKey s = getSlotKey c →
        c.Sets.map (fun x => x.Number) = [1, 2] → s.Sets.map (fun x => x.Number) = [1, 2, 3] →
        ∃ a, s.Sets[2]? = some a ∧
          extraNewSets s.Sets c.Sets c.ID = [⟨"", c.ID, 3, a.Games, a.Tiebreak⟩] := by
  refine ⟨?_, ?_, ?_⟩
  · rw [getUpdates_eq]
    simp only
    apply List.flatMap_congr
    intro k hk
    rw [← slotMap_eq_find scraped hs k, ← slotMap_eq_find current hc k]
    cases h1 : slotMap scraped k <;> cases h2 : slotMap current k <;> simp [keyUpdates]
  · rw [getUpdates_eq]
    simp only
    apply List.flatMap_congr
    intro k hk
    rw [← slotMap_eq_find scraped hs k, ← slotMap_eq_find current hc k]
    cases h1 : slotMap scraped k with
    | some s => cases h2 : slotMap current k <;> simp [keyUpdates]
    | none =>
      cases h2 : slotMap current k with
      | some c => simp [keyUpdates]
      | none =>
        exfalso
        rcases (mem_sortedKeys _ _ _).mp hk with h | h
        · exact (slotMap_eq_none _ _).mp h1 h
        · exact (slotMap_eq_none _ _).mp h2 h
  · intro s _ c _ _ hcn hsn
    obtain ⟨ss, hss⟩ : ∃ ss, s.Sets = ss := ⟨_, rfl⟩
    obtain ⟨cs, hcs⟩ : ∃ cs, c.Sets = cs := ⟨_, rfl⟩
    rw [hss] at hsn ⊢
    rw [hcs] at hcn ⊢
    rcases ss with _ | ⟨a1, _ | ⟨a2, _ | ⟨a3, _ | ⟨a4, t⟩⟩⟩⟩ <;> simp at hsn
    rcases cs with _ | ⟨b1, _ | ⟨b2, _ | ⟨b3, t⟩⟩⟩ <;> simp at hcn
    refine ⟨a3, rfl, ?_⟩
    simp [extraNewSets, List.range_succ, List.filter_cons, hsn.2.2]

/-- An instance of `set_records_by_index`: stored sets numbered 1, 2 and scraped sets numbered
1, 2, 3, the second with a different score. -/
theorem set_records_by_index_witness :
    (getUpdates
        [⟨"", "d", 1, 1, "A", "", [⟨"", "", 1, 6, 0⟩, ⟨"", "", 2, 7, 5⟩, ⟨"", "", 3, 2, 0⟩]⟩]
        [⟨"id1", "d", 1, 1, "A", "", [⟨"s1", "id1", 1, 6, 0⟩, ⟨"s2", "id1", 2, 6, 5⟩]⟩]
        (fun _ => none)).newSets = [⟨"", "id1", 3, 2, 0⟩] ∧
      (getUpdates
        [⟨"", "d", 1, 1, "A", "", [⟨"", "", 1, 6, 0⟩, ⟨"", "", 2, 7, 5⟩, ⟨"", "", 3, 2, 0⟩]⟩]
        [⟨"id1", "d", 1, 1, "A", "", [⟨"s1", "id1", 1, 6, 0⟩, ⟨"s2", "id1", 2, 6, 5⟩]⟩]
        (fun _ => none)).updatedSets = [⟨"s2", "id1", 2, 7, 5⟩] :=
  have h := set_records_by_index
    [⟨"", "d", 1, 1, "A", "", [⟨"", "", 1, 6, 0⟩, ⟨"", "", 2, 7, 5⟩, ⟨"", "", 3, 2, 0⟩]⟩]
    [⟨"id1", "d", 1, 1, "A", "", [⟨"s1", "id1", 1, 6, 0⟩, ⟨"s2", "id1", 2, 6, 5⟩]⟩]
    (fun _ => none) (by decide) (by decide)
  ⟨h.2.1.trans (by decide), h.1.trans (by decide)⟩

/-- C5, counterexample: a one-slot collection with Name "A" and empty Seed, reconciled against
itself with a lookup mapping "A" to "4", yields an updated Slot. -/
theorem idempotence_counterexample :
    (([⟨"id1", "d", 1, 1, "A", "", []⟩] : SlotSlice).map getSlotKey).Nodup ∧
      (getUpdates [⟨"id1", "d", 1, 1, "A", "", []⟩] [⟨"id1", "d", 1, 1, "A", "", []⟩]
        (fun n => if n = "A" then some "4" else none)).updatedSlots =
        [⟨"id1", "d", 1, 1, "A", "4", []⟩] := by
  decide

/-- C5, amended (idempotence). Reconciling a collection against itself returns four empty
sequences whenever the seed lookup agrees with the stored seeds: for every slot with a
non-empty Name, `seeds[Name]` (empty when absent) is the slot's Seed. -/
theorem idempotence (c : SlotSlice) (seeds : String → Option String)
    (hseed : ∀ s ∈ c, s.Name ≠ "" → (seeds s.Name).getD "" = s.Seed) :
    getUpdates c c seeds = ⟨[], [], [], []⟩ := by
  rw [getUpdates_eq]
  have hall : ∀ k ∈ sortedKeys c c,
      keyUpdates seeds (slotMap c k) (slotMap c k) = ⟨[], [], [], []⟩ := by
    intro k hk
    have hkc : k ∈ c.map getSlotKey := by
      rcases (mem_sortedKeys _ _ _).mp hk with h | h <;> exact h
    obtain ⟨s, hs⟩ : ∃ s, slotMap c k = some s := by
      rw [← Option.isSome_iff_exists, slotMap_isSome]; exact hkc
    have hsm := (slotMap_some c k s hs).1
    rw [hs]
    simp only [keyUpdates, Updates.mk.injEq, true_and]
    refine ⟨?_, ?_, ?_⟩
    · unfold slotUpdate
      by_cases hn : s.Name = ""
      · simp [hn]
      · simp [hn, hseed s hsm hn]
    · unfold extraNewSets
      have : (List.range s.Sets.length).filter (fun i => decide (s.Sets.length ≤ i)) = [] := by
        rw [List.filter_eq_nil_iff]
        intro i hi
        rw [List.mem_range] at hi
        simp only [decide_eq_true_eq]; omega
      rw [this]; rfl
    · unfold pairedSetUpdates
      rw [List.filterMap_eq_nil_iff]
      intro i _
      cases s.Sets[i]? <;> simp
  congr 1
  all_goals
    simp only [List.flatMap_eq_nil_iff]
    intro k hk
    rw [hall k hk]

/-- An instance of `idempotence`: a seeded slot with one set and a consistent lookup. -/
theorem idempotence_witness :
    getUpdates [⟨"id1", "d", 1, 1, "A", "4", [⟨"s1", "id1", 1, 6, 0⟩]⟩]
      [⟨"id1", "d", 1, 1, "A", "4", [⟨"s1", "id1", 1, 6, 0⟩]⟩]
      (fun n => if n = "A" then some "4" else none) = ⟨[], [], [], []⟩ :=
  idempotence [⟨"id1", "d", 1, 1, "A", "4", [⟨"s1", "id1", 1, 6, 0⟩]⟩]
    (fun n => if n = "A" then some "4" else none) (by decide)

/-- C3 (name preservation). If a key occurs in both collections and every scraped slot at
that key has the empty Name, the updated-Slot sequence of `getUpdates` has no record for that
key, whatever the stored Name and Seed and whatever the seed lookup returns; and it has no
record carrying the storage ID of a current slot at that key, provided that storage ID
belongs to no current slot at another key. -/
theorem name_preservation (scraped current : SlotSlice) (seeds : String → Option String)
    (k : String) (hcur : k ∈ current.map getSlotKey) (hscr : k ∈ scraped.map getSlotKey)
    (hname : ∀ s ∈ scraped, getSlotKey s = k → s.Name = "") :
    (∀ u ∈ (getUpdates scraped current seeds).updatedSlots, getSlotKey u ≠ k) ∧
      ∀ c ∈ current, getSlotKey c = k →
        (∀ c' ∈ current, c'.ID = c.ID → getSlotKey c' = k) →
        ∀ u ∈ (getUpdates scraped current seeds).updatedSlots, u.ID ≠ c.ID := by
  have key : ∀ u ∈ (getUpdates scraped current seeds).updatedSlots,
      getSlotKey u ≠ k ∧ ∃ c' ∈ current, getSlotKey c' = getSlotKey u ∧ u.ID = c'.ID := by
    intro u hu
    rw [getUpdates_eq] at hu
    simp only [List.mem_flatMap] at hu
    obtain ⟨k', -, hu'⟩ := hu
    have hk' := keyUpdates_updatedSlots_key seeds scraped current k' u hu'
    refine ⟨?_, ?_⟩
    · intro hku
      have hkk : k' = k := hk'.1.symm.trans hku
      subst hkk
      obtain ⟨c, hc⟩ : ∃ c, slotMap current k' = some c := by
        rw [← Option.isSome_iff_exists, slotMap_isSome]; exact hcur
      obtain ⟨s, hs⟩ : ∃ s, slotMap scraped k' = some s := by
        rw [← Option.isSome_iff_exists, slotMap_isSome]; exact hscr
      have hs' := slotMap_some scraped k' s hs
      have hn := hname s hs'.1 hs'.2
      simp [hc, hs, keyUpdates, slotUpdate, hn] at hu'
    · obtain ⟨c', hc', hck, hid⟩ := hk'.2
      exact ⟨c', hc', hck.trans hk'.1.symm, hid⟩
  refine ⟨fun u hu => (key u hu).1, ?_⟩
  intro c _ _ huniq u hu hid
  obtain ⟨hne, c', hc', hck, hid'⟩ := key u hu
  exact hne (hck ▸ huniq c' hc' (hid'.symm.trans hid))

/-- An instance of `name_preservation`: stored Name "Player A", scraped Name empty. -/
theorem name_preservation_witness :
    (∀ u ∈ (getUpdates [⟨"", "d", 1, 1, "", "", []⟩] [⟨"id1", "d", 1, 1, "Player A", "3", []⟩]
        (fun n => if n = "" then some "9" else none)).updatedSlots,
        getSlotKey u ≠ "1.001") ∧
      ∀ c ∈ [(⟨"id1", "d", 1, 1, "Player A", "3", []⟩ : Slot)], getSlotKey c = "1.001" →
        (∀ c' ∈ [(⟨"id1", "d", 1, 1, "Player A", "3", []⟩ : Slot)], c'.ID = c.ID →
          getSlotKey c' = "1.001") →
        ∀ u ∈ (getUpdates [⟨"", "d", 1, 1, "", "", []⟩] [⟨"id1", "d", 1, 1, "Player A", "3", []⟩]
          (fun n => if n = "" then some "9" else none)).updatedSlots, u.ID ≠ c.ID :=
  name_preservation [⟨"", "d", 1, 1, "", "", []⟩] [⟨"id1", "d", 1, 1, "Player A", "3", []⟩]
    (fun n => if n = "" then some "9" else none) "1.001" (by decide) (by decide) (by decide)

/-- C4 (name and seed reconciliation). For a scraped slot `s` and a current slot `c` at the
same key, keys being unique within each collection, with `s.Name` non-empty and the resolved
seed `seeds[s.Name]` (empty when absent): if the name or the seed differs from the stored one,
the updated Slots for that key are exactly one record, carrying `c`'s storage ID, DrawID,
Round and Position, the scraped Name, the resolved Seed and the scraped Sets; if both are
equal there is none. -/
theorem updatedSlot_for_shared_key (scraped current : SlotSlice)
    (seeds : String → Option String)
    (hs : (scraped.map getSlotKey).Nodup) (hc : (current.map getSlotKey).Nodup)
    (s c : Slot) (hsm : s ∈ scraped) (hcm : c ∈ current)
    (hk : getSlotKey s = getSlotKey c) (hn : s.Name ≠ "") :
    ((s.Name ≠ c.Name ∨ (seeds s.Name).getD "" ≠ c.Seed) →
        (getUpdates scraped current seeds).updatedSlots.filter
            (fun u => getSlotKey u = getSlotKey c) =
          [⟨c.ID, c.DrawID, c.Round, c.Position, s.Name, (seeds s.Name).getD "", s.Sets⟩]) ∧
      ((s.Name = c.Name ∧ (seeds s.Name).getD "" = c.Seed) →
        (getUpdates scraped current seeds).updatedSlots.filter
            (fun u => getSlotKey u = getSlotKey c) = []) := by
  have hmem : getSlotKey c ∈ sortedKeys scraped current := by
    rw [mem_sortedKeys]; exact Or.inr (List.mem_map_of_mem _ hcm)
  have hfilter : (getUpdates scraped current seeds).updatedSlots.filter
      (fun u => getSlotKey u = getSlotKey c) = slotUpdate seeds s c := by
    rw [getUpdates_eq]
    simp only
    rw [filter_flatMap_of_mem _ _
      (fun k u hu => (keyUpdates_updatedSlots_key seeds scraped current k u hu).1)
      (sortedKeys_nodup scraped current) _ hmem]
    rw [slotMap_of_nodup current hc c hcm, ← hk, slotMap_of_nodup scraped hs s hsm]
    rfl
  rw [hfilter]
  constructor
  · intro hd
    have : ¬ (s.Name = c.Name ∧ (seeds s.Name).getD "" = c.Seed) := by
      intro h; rcases hd with h1 | h1
      · exact h1 h.1
      · exact h1 h.2
    simp only [slotUpdate, if_neg hn, if_neg this]
  · intro he
    simp only [slotUpdate, if_neg hn, if_pos he]

/-- The scenario of the specification: key "2.003" stored with empty Name and Seed, scraped
Name "B", lookup "B" ↦ "4": one updated Slot with Name "B" and Seed "4". -/
theorem updatedSlot_for_shared_key_witness :
    (getUpdates [⟨"", "d", 2, 3, "B", "", []⟩] [⟨"id7", "d", 2, 3, "", "", []⟩]
        (fun n => if n = "B" then some "4" else none)).updatedSlots.filter
        (fun u => getSlotKey u = getSlotKey ⟨"id7", "d", 2, 3, "", "", []⟩) =
      [⟨"id7", "d", 2, 3, "B", "4", []⟩] :=
  (updatedSlot_for_shared_key [⟨"", "d", 2, 3, "B", "", []⟩] [⟨"id7", "d", 2, 3, "", "", []⟩]
    (fun n => if n = "B" then some "4" else none) (by decide) (by decide)
    ⟨"", "d", 2, 3, "B", "", []⟩ ⟨"id7", "d", 2, 3, "", "", []⟩ (by decide) (by decide)
    (by decide) (by decide)).1 (by decide)

/-- C6, counterexample: a scraped slot with Name "B" and empty Seed, an empty store and a
lookup mapping "B" to "4". The first reconciliation inserts the slot with the empty Seed; the
second one still emits an updated Slot, with Seed "4". -/
theorem convergence_counterexample :
    (([⟨"", "d", 1, 1, "B", "", []⟩] : SlotSlice).map getSlotKey).Nodup ∧
      (getUpdates [⟨"", "d", 1, 1, "B", "", []⟩]
        (applyUpdates (fun _ => "new1") (fun _ => "set1") []
          (getUpdates [⟨"", "d", 1, 1, "B", "", []⟩] []
            (fun n => if n = "B" then some "4" else none)))
        (fun n => if n = "B" then some "4" else none)).updatedSlots =
        [⟨"new1", "d", 1, 1, "B", "4", []⟩] := by
  decide

/-- C6, amended (monotonic convergence). Let the scraped keys be pairwise distinct, the
storage IDs of the current slots pairwise distinct, the storage IDs of all their sets pairwise
distinct, no scraped slot carry the storage ID of a current slot, and let every scraped slot
that is new (its key occurs in no current slot) and has a non-empty Name carry the Seed the
lookup gives for its Name. Then reconciling again, against `current` with the four outputs
applied, returns four empty sequences. -/
theorem convergence (scraped current : SlotSlice) (seeds : String → Option String)
    (fresh : Nat → String) (setID : Set → String)
    (hs : (scraped.map getSlotKey).Nodup)
    (hid : (current.map fun c => c.ID).Nodup)
    (hsid : ((current.flatMap fun c => c.Sets).map fun x => x.ID).Nodup)
    (hscr : ∀ s ∈ scraped, ∀ c ∈ current, s.ID ≠ c.ID)
    (hseed : ∀ s ∈ scraped, getSlotKey s ∉ current.map getSlotKey → s.Name ≠ "" →
      (seeds s.Name).getD "" = s.Seed) :
    getUpdates scraped
        (applyUpdates fresh setID current (getUpdates scraped current seeds)) seeds =
      ⟨[], [], [], []⟩ := by
  have hall : ∀ k ∈ sortedKeys scraped [],
      keyUpdates seeds (slotMap scraped k)
        (slotMap (applyUpdates fresh setID current (getUpdates scraped current seeds)) k) =
        ⟨[], [], [], []⟩ := by
    intro k hk
    have hks : k ∈ scraped.map getSlotKey := by simpa [mem_sortedKeys] using hk
    obtain ⟨s, hsk⟩ : ∃ s, slotMap scraped k = some s := by
      rw [← Option.isSome_iff_exists, slotMap_isSome]; exact hks
    have hsm := slotMap_some scraped k s hsk
    unfold applyUpdates
    rw [slotMap_append_list, hsk]
    by_cases hkc : k ∈ current.map getSlotKey
    · obtain ⟨c, hck⟩ : ∃ c, slotMap current k = some c := by
        rw [← Option.isSome_iff_exists, slotMap_isSome]; exact hkc
      have hnone : slotMap (insertNewSlots fresh setID 0
          (getUpdates scraped current seeds).newSlots) k = none := by
        rw [slotMap_eq_none, map_key_insertNewSlots]
        intro hmem
        obtain ⟨u, hu, huk⟩ := List.mem_map.mp hmem
        exact (mem_newSlots scraped current seeds u hu).2 (huk ▸ hkc)
      rw [hnone]
      simp only
      rw [slotMap_map _ _ (getSlotKey_applyToSlot setID _), hck]
      simp only [Option.map_some', keyUpdates, Updates.mk.injEq, true_and]
      have h1 := slotUpdate_applyToSlot scraped current seeds setID hid k s c hsk hck
      have h2 := sets_applyToSlot scraped current seeds setID hid hsid hscr k s c hsk hck
        (applyToSlot setID (getUpdates scraped current seeds) c).ID
      exact ⟨h1, h2.1, h2.2⟩
    · have hnew : s ∈ (getUpdates scraped current seeds).newSlots := by
        rw [(newSlots_perm scraped current seeds hs).mem_iff, List.mem_filter]
        exact ⟨hsm.1, by simpa [hsm.2] using hkc⟩
      have hin : k ∈ (insertNewSlots fresh setID 0
          (getUpdates scraped current seeds).newSlots).map getSlotKey := by
        rw [map_key_insertNewSlots]
        exact List.mem_map.mpr ⟨s, hnew, hsm.2⟩
      obtain ⟨t, ht⟩ : ∃ t, slotMap (insertNewSlots fresh setID 0
          (getUpdates scraped current seeds).newSlots) k = some t := by
        rw [← Option.isSome_iff_exists, slotMap_isSome]; exact hin
      have ht' := slotMap_some _ k t ht
      obtain ⟨j, s0, hs0, hts⟩ := mem_insertNewSlots fresh setID _ 0 t ht'.1
      have hs0k : getSlotKey s0 = getSlotKey s := by
        rw [← getSlotKey_persistNewSlot setID (fresh j) s0, ← hts, ht'.2, hsm.2]
      have hs0s : s0 = s :=
        List.inj_on_of_nodup_map hs (mem_newSlots scraped current seeds s0 hs0).1 hsm.1 hs0k
      rw [ht, hts, hs0s]
      simp only
      exact keyUpdates_persistNewSlot seeds setID (fresh j) s
        (hseed s hsm.1 (by rw [hsm.2]; exact hkc))
  rw [getUpdates_eq_scraped]
  congr 1
  all_goals
    simp only [List.flatMap_eq_nil_iff]
    intro k hk
    rw [hall k hk]

/-- An instance of `convergence`: one stored slot whose name, second set and number of sets
change, one slot that is new, and one stored slot that is no longer scraped. -/
theorem convergence_witness :
    getUpdates
        [⟨"", "d", 1, 1, "A", "", [⟨"", "", 1, 6, 0⟩, ⟨"", "", 2, 7, 5⟩, ⟨"", "", 3, 2, 0⟩]⟩,
          ⟨"", "d", 2, 1, "B", "4", [⟨"", "", 1, 3, 0⟩]⟩]
        (applyUpdates (fun i => if i = 0 then "new0" else "new1") (fun _ => "setN")
          [⟨"id1", "d", 1, 1, "Z", "", [⟨"s1", "id1", 1, 6, 0⟩, ⟨"s2", "id1", 2, 6, 5⟩]⟩,
            ⟨"id3", "d", 5, 5, "Q", "", []⟩]
          (getUpdates
            [⟨"", "d", 1, 1, "A", "", [⟨"", "", 1, 6, 0⟩, ⟨"", "", 2, 7, 5⟩, ⟨"", "", 3, 2, 0⟩]⟩,
              ⟨"", "d", 2, 1, "B", "4", [⟨"", "", 1, 3, 0⟩]⟩]
            [⟨"id1", "d", 1, 1, "Z", "", [⟨"s1", "id1", 1, 6, 0⟩, ⟨"s2", "id1", 2, 6, 5⟩]⟩,
              ⟨"id3", "d", 5, 5, "Q", "", []⟩]
            (fun n => if n = "B" then some "4" else none)))
        (fun n => if n = "B" then some "4" else none) =
      ⟨[], [], [], []⟩ :=
  convergence
    [⟨"", "d", 1, 1, "A", "", [⟨"", "", 1, 6, 0⟩, ⟨"", "", 2, 7, 5⟩, ⟨"", "", 3, 2, 0⟩]⟩,
      ⟨"", "d", 2, 1, "B", "4", [⟨"", "", 1, 3, 0⟩]⟩]
    [⟨"id1", "d", 1, 1, "Z", "", [⟨"s1", "id1", 1, 6, 0⟩, ⟨"s2", "id1", 2, 6, 5⟩]⟩,
      ⟨"id3", "d", 5, 5, "Q", "", []⟩]
    (fun n => if n = "B" then some "4" else none)
    (fun i => if i = 0 then "new0" else "new1") (fun _ => "setN")
    (by decide) (by decide) (by decide) (by decide) (by decide)

/-- C7 (record normalizer). For records in which every present Games value has a present
Tiebreak value, `toSlotSlice` returns one Slot per record, in the same order, each the normal
form of its record (`SlotRecord.NormalizesTo`, stated on the fields `Set1ID` to
`Set5Tiebreak`): ID, DrawID, Round, Position, Name and Seed copied and Sets the sets at indices
`1..k`, where `k ≤ 5` is the largest number such that Games at `1..k` are all present; set `i`
has Number `i`, storage ID `Set<i>ID`, owner the record's ID and the record's Games and
Tiebreak at `i`. In particular the Numbers are `1..k` and sets after a gap are dropped. -/
theorem toSlotSlice_normalizes (sr : List SlotRecord)
    (h : ∀ r ∈ sr, ∀ t ∈ r.setScores, t.2.1.isSome → t.2.2.isSome) :
    ∃ out, toSlotSlice sr = some out ∧ List.Forall₂ SlotRecord.NormalizesTo sr out := by
  have hall : ∀ l : List SlotRecord, (∀ r ∈ l, r ∈ sr) →
      ∃ out, List.Forall₂ (fun r s => toSlot r = some s) l out ∧
        List.Forall₂ SlotRecord.NormalizesTo l out := by
    intro l
    induction l with
    | nil => intro _; exact ⟨[], List.Forall₂.nil, List.Forall₂.nil⟩
    | cons r rest ih =>
      intro hl
      obtain ⟨out, h1, h2⟩ := ih (fun x hx => hl x (List.mem_cons_of_mem _ hx))
      obtain ⟨s, hs1, hs2⟩ := toSlot_normalizes r (h r (hl r (List.mem_cons_self _ _)))
      exact ⟨s :: out, List.Forall₂.cons hs1 h1, List.Forall₂.cons hs2 h2⟩
  obtain ⟨out, h1, h2⟩ := hall sr (fun _ hr => hr)
  refine ⟨out, ?_, h2⟩
  have := toSlotSliceLoop_some sr [] out h1
  simpa [toSlotSlice] using this

/-- An instance of `toSlotSlice_normalizes` with its result spelled out: a record with all five
sets gives five sets carrying the IDs `Set1ID` to `Set5ID` and the record's scores, and a
record with a gap (set 3 absent, set 4 present) gives only sets 1 and 2. -/
theorem toSlotSlice_normalizes_witness :
    toSlotSlice
        [⟨"r1", "d", 1, 1, "A", "2", "a1", some 6, some 0, "a2", some 7, some 5,
            "a3", some 3, some 0, "a4", some 6, some 9, "a5", some 1, some 0⟩,
          ⟨"r2", "d", 1, 2, "B", "", "b1", some 4, some 0, "b2", some 6, some 8,
            "b3", none, none, "b4", some 2, some 0, "b5", none, none⟩] =
      some
        [⟨"r1", "d", 1, 1, "A", "2",
            [⟨"a1", "r1", 1, 6, 0⟩, ⟨"a2", "r1", 2, 7, 5⟩, ⟨"a3", "r1", 3, 3, 0⟩,
              ⟨"a4", "r1", 4, 6, 9⟩, ⟨"a5", "r1", 5, 1, 0⟩]⟩,
          ⟨"r2", "d", 1, 2, "B", "", [⟨"b1", "r2", 1, 4, 0⟩, ⟨"b2", "r2", 2, 6, 8⟩]⟩] ∧
      List.Forall₂ SlotRecord.NormalizesTo
        [⟨"r1", "d", 1, 1, "A", "2", "a1", some 6, some 0, "a2", some 7, some 5,
            "a3", some 3, some 0, "a4", some 6, some 9, "a5", some 1, some 0⟩,
          ⟨"r2", "d", 1, 2, "B", "", "b1", some 4, some 0, "b2", some 6, some 8,
            "b3", none, none, "b4", some 2, some 0, "b5", none, none⟩]
        [⟨"r1", "d", 1, 1, "A", "2",
            [⟨"a1", "r1", 1, 6, 0⟩, ⟨"a2", "r1", 2, 7, 5⟩, ⟨"a3", "r1", 3, 3, 0⟩,
              ⟨"a4", "r1", 4, 6, 9⟩, ⟨"a5", "r1", 5, 1, 0⟩]⟩,
          ⟨"r2", "d", 1, 2, "B", "", [⟨"b1", "r2", 1, 4, 0⟩, ⟨"b2", "r2", 2, 6, 8⟩]⟩] := by
  obtain ⟨out, h1, h2⟩ := toSlotSlice_normalizes
    [⟨"r1", "d", 1, 1, "A", "2", "a1", some 6, some 0, "a2", some 7, some 5,
        "a3", some 3, some 0, "a4", some 6, some 9, "a5", some 1, some 0⟩,
      ⟨"r2", "d", 1, 2, "B", "", "b1", some 4, some 0, "b2", some 6, some 8,
        "b3", none, none, "b4", some 2, some 0, "b5", none, none⟩] (by decide)
  have heval : toSlotSlice
      [⟨"r1", "d", 1, 1, "A", "2", "a1", some 6, some 0, "a2", some 7, some 5,
          "a3", some 3, some 0, "a4", some 6, some 9, "a5", some 1, some 0⟩,
        ⟨"r2", "d", 1, 2, "B", "", "b1", some 4, some 0, "b2", some 6, some 8,
          "b3", none, none, "b4", some 2, some 0, "b5", none, none⟩] =
      some
        [⟨"r1", "d", 1, 1, "A", "2",
            [⟨"a1", "r1", 1, 6, 0⟩, ⟨"a2", "r1", 2, 7, 5⟩, ⟨"a3", "r1", 3, 3, 0⟩,
              ⟨"a4", "r1", 4, 6, 9⟩, ⟨"a5", "r1", 5, 1, 0⟩]⟩,
          ⟨"r2", "d", 1, 2, "B", "", [⟨"b1", "r2", 1, 4, 0⟩, ⟨"b2", "r2", 2, 6, 8⟩]⟩] := by
    decide
  rw [heval] at h1
  exact ⟨heval, (Option.some.inj h1) ▸ h2⟩

/-- C8, the failing input: a record whose set 1 has Games present and Tiebreak absent makes
`toSlotSlice` panic (nil pointer dereference) instead of returning a Slot. -/
theorem toSlotSlice_panics_on_absent_tiebreak :
    toSlotSlice [⟨"r1", "d", 1, 1, "A", "", "s1", some 6, none, "", none, none,
      "", none, none, "", none, none, "", none, none⟩] = none := by
  decide

/-- C9 (collision-free key). For any integer Round and Position, two slots have the same key
exactly when they have the same Round and the same Position; round 3, position 7 gives
"3.007"; and every updated Slot that `getUpdates` emits pairs a scraped and a current slot
with the same Round and the same Position. -/
theorem getSlotKey_collision_free :
    (∀ a b : Slot, getSlotKey a = getSlotKey b ↔ a.Round = b.Round ∧ a.Position = b.Position) ∧
      getSlotKey ⟨"", "", 3, 7, "", "", []⟩ = "3.007" ∧
      ∀ (scraped current : SlotSlice) (seeds : String → Option String),
        ∀ u ∈ (getUpdates scraped current seeds).updatedSlots,
          ∃ s ∈ scraped, ∃ c ∈ current, s.Round = c.Round ∧ s.Position = c.Position ∧
            u.ID = c.ID ∧ u.Round = c.Round ∧ u.Position = c.Position ∧ u.Name = s.Name := by
  refine ⟨getSlotKey_eq_iff, by decide, ?_⟩
  intro scraped current seeds u hu
  obtain ⟨k, s, c, hs, hc, hmem⟩ := mem_updatedSlots scraped current seeds u hu
  have hs' := slotMap_some scraped k s hs
  have hc' := slotMap_some current k c hc
  have hk := (getSlotKey_eq_iff s c).mp (hs'.2.trans hc'.2.symm)
  refine ⟨s, hs'.1, c, hc'.1, hk.1, hk.2, ?_⟩
  unfold slotUpdate at hmem
  split_ifs at hmem
  · simp at hmem
  · simp at hmem
  · simp only [List.mem_singleton] at hmem
    subst hmem
    exact ⟨rfl, rfl, rfl, rfl⟩

/-- C10, counterexample: rounds 10 and 2 at position 1. The key "10.001" sorts before "2.001"
although (10, 1) is not below (2, 1); and `getUpdates` emits the round-10 slot first. -/
theorem key_order_counterexample :
    ((1 : Int) ≤ 10 ∧ (1 : Int) ≤ 2 ∧ (1 : Int) ≤ 1) ∧
      getSlotKey ⟨"", "d", 10, 1, "A", "", []⟩ < getSlotKey ⟨"", "d", 2, 1, "B", "", []⟩ ∧
      ¬ ((10 : Int) < 2 ∨ ((10 : Int) = 2 ∧ (1 : Int) < 1)) ∧
      (getUpdates [⟨"", "d", 2, 1, "B", "", []⟩, ⟨"", "d", 10, 1, "A", "", []⟩] []
        (fun _ => none)).newSlots.map (fun s => s.Round) = [10, 2] :=
  ⟨by decide, (stringLess_iff _ _).mp (by decide), by decide, by decide⟩

/-- C10, amended (sortable key). For slots with `1 ≤ Round ≤ 9` and `1 ≤ Position ≤ 999` the
key order is the lexicographic order of the pairs (Round, Position); hence, when all scraped
and current slots are in that range, the keys are processed in ascending (Round, Position)
order and the new-Slot and updated-Slot sequences are ascending in (Round, Position). -/
theorem key_order_small :
    (∀ a b : Slot,
        (1 ≤ a.Round ∧ a.Round ≤ 9 ∧ 1 ≤ a.Position ∧ a.Position ≤ 999) →
        (1 ≤ b.Round ∧ b.Round ≤ 9 ∧ 1 ≤ b.Position ∧ b.Position ≤ 999) →
        (getSlotKey a < getSlotKey b ↔
          a.Round < b.Round ∨ (a.Round = b.Round ∧ a.Position < b.Position))) ∧
      ∀ (scraped current : SlotSlice) (seeds : String → Option String),
        (∀ s ∈ scraped, 1 ≤ s.Round ∧ s.Round ≤ 9 ∧ 1 ≤ s.Position ∧ s.Position ≤ 999) →
        (∀ c ∈ current, 1 ≤ c.Round ∧ c.Round ≤ 9 ∧ 1 ≤ c.Position ∧ c.Position ≤ 999) →
        (sortedKeys scraped current).Sorted (· < ·) ∧
        (getUpdates scraped current seeds).newSlots.Sorted
          (fun a b => a.Round < b.Round ∨ (a.Round = b.Round ∧ a.Position < b.Position)) ∧
        (getUpdates scraped current seeds).updatedSlots.Sorted
          (fun a b => a.Round < b.Round ∨ (a.Round = b.Round ∧ a.Position < b.Position)) := by
  refine ⟨getSlotKey_lt_iff, ?_⟩
  intro scraped current seeds hs hc
  refine ⟨sortedKeys_sorted scraped current, ?_, ?_⟩
  · apply sorted_of_keys_sorted
    · exact (sortedKeys_sorted scraped current).sublist (newSlots_keys_sublist _ _ _)
    · intro s hsm
      exact hs s (mem_newSlots scraped current seeds s hsm).1
  · apply sorted_of_keys_sorted
    · exact (sortedKeys_sorted scraped current).sublist (updatedSlots_keys_sublist _ _ _)
    · intro u hu
      obtain ⟨k, s, c, _, hcm, hmem⟩ := mem_updatedSlots scraped current seeds u hu
      have hc' := hc c (slotMap_some current k c hcm).1
      unfold slotUpdate at hmem
      split_ifs at hmem
      · simp at hmem
      · simp at hmem
      · simp only [List.mem_singleton] at hmem
        subst hmem
        exact hc'

/-- An instance of `key_order_small`: (3, 7) against (3, 12). -/
theorem key_order_small_witness :
    getSlotKey ⟨"", "d", 3, 7, "", "", []⟩ < getSlotKey ⟨"", "d", 3, 12, "", "", []⟩ ↔
      ((3 : Int) < 3 ∨ ((3 : Int) = 3 ∧ (7 : Int) < 12)) :=
  key_order_small.1 ⟨"", "d", 3, 7, "", "", []⟩ ⟨"", "d", 3, 12, "", "", []⟩
    (by decide) (by decide)

end TennisBracket
